import Mathlib

/-!
Verification of the `stormlightlabs/writer` document store against its
natural-language specification.

The development shallowly embeds the Rust code of `crates/core/src/lib.rs`
and `crates/store/src/{lib.rs, text_utils.rs, file_utils.rs}`:

* paths are modelled as lists of `std::path::Component` values (for
  normalization) or as the strings SQLite stores (`rel_path` columns);
* the SQLite tables `documents` and `docs_fts` are modelled as lists of
  rows, with `INSERT .. ON CONFLICT DO UPDATE`, `DELETE` and `UPDATE`
  executed as the corresponding list transformations;
* RFC3339 timestamps are modelled by their integer instants;
* machine strings are modelled as `List Char` together with an explicit
  UTF-8 byte encoding where the Rust code works on byte indices;
* the out-of-scope Markdown metadata collaborator and the content hash are
  parameters of the model (`Collab`).
-/

namespace Writer

/-! ## Core path model (crates/core/src/lib.rs) -/

/-- `std::path::Component`, as produced by `Path::components()`.
`normal s` carries a single path segment (never empty, never containing a
separator); prefix components (Windows drive letters etc.) are collapsed
into one constructor since `normalize_relative_path` treats them all
alike. -/
inductive PathComponent where
  | normal (s : String)
  | curDir
  | parentDir
  | rootDir
  | drivePre
deriving Repr, DecidableEq

/-- `PathError` from `crates/core/src/lib.rs`. -/
inductive PathError where
  | pathTraversalAttempt
  | emptyPath
  | invalidPath (msg : String)
deriving Repr, DecidableEq

/-- The component walk of `normalize_relative_path`: `Normal` pushes,
`CurDir` is skipped, `ParentDir` pops (error when nothing to pop),
root/prefix components are rejected. -/
def normalizeWalk : List String → List PathComponent → Except PathError (List String)
  | acc, [] => .ok acc
  | acc, .normal s :: rest => normalizeWalk (acc ++ [s]) rest
  | acc, .curDir :: rest => normalizeWalk acc rest
  | acc, .parentDir :: rest =>
      if acc.isEmpty then .error .pathTraversalAttempt
      else normalizeWalk acc.dropLast rest
  | _, .rootDir :: _ =>
      .error (.invalidPath "Absolute paths are not allowed as relative paths")
  | _, .drivePre :: _ =>
      .error (.invalidPath "Absolute paths are not allowed as relative paths")

/-- `normalize_relative_path` from `crates/core/src/lib.rs`.  A path is
given by its component list; the empty string is exactly the path with no
components. -/
def normalizeRelativePath (cs : List PathComponent) : Except PathError (List String) :=
  if cs.isEmpty then .error .emptyPath
  else
    match normalizeWalk [] cs with
    | .error e => .error e
    | .ok normalized =>
        if normalized.isEmpty then .error .emptyPath else .ok normalized

/-- `DocRef::resolve` / `DocId::resolve`: `location_root.join(&rel_path)`
on a relative path appends the segments of the relative path to those of
the root. -/
def resolvePath (locationRoot : List String) (relPath : List String) : List String :=
  locationRoot ++ relPath

/-! ## Error and encoding types (crates/core/src/lib.rs) -/

/-- `ErrorCode` from `crates/core/src/lib.rs`. -/
inductive ErrorCode where
  | notFound
  | permissionDenied
  | invalidPath
  | io
  | parse
  | index
  | conflict
deriving Repr, DecidableEq

/-- `AppError` from `crates/core/src/lib.rs` (the optional context field is
omitted: nothing modelled here sets it). -/
structure AppError where
  code : ErrorCode
  message : String
deriving Repr, DecidableEq

def AppError.io (message : String) : AppError := ⟨ErrorCode.io, message⟩

def AppError.notFound (message : String) : AppError := ⟨ErrorCode.notFound, message⟩

def AppError.invalidPath (message : String) : AppError := ⟨ErrorCode.invalidPath, message⟩

/-- `Encoding` from `crates/core/src/lib.rs`. -/
inductive Encoding where
  | utf8
  | utf8WithBom
  | utf16Le
  | utf16Be
deriving Repr, DecidableEq

/-! ## Byte-level string model

Rust `String`/`str` values are modelled as `List Char`; where the code
manipulates byte indices, the UTF-8 encoding is made explicit. -/

/-- The UTF-8 encoding of a scalar value. -/
def utf8Bytes (c : Char) : List Nat :=
  let n := c.toNat
  if n < 0x80 then [n]
  else if n < 0x800 then [0xC0 + n / 64, 0x80 + n % 64]
  else if n < 0x10000 then [0xE0 + n / 4096, 0x80 + (n / 64) % 64, 0x80 + n % 64]
  else [0xF0 + n / 0x40000, 0x80 + (n / 4096) % 64, 0x80 + (n / 64) % 64, 0x80 + n % 64]

/-- `char::len_utf8`. -/
def utf8Len (c : Char) : Nat := (utf8Bytes c).length

/-- The UTF-8 byte string of a Rust string (`str::as_bytes`). -/
def strBytes (s : List Char) : List Nat := s.flatMap utf8Bytes

/-- `char::is_whitespace`: the Unicode `White_Space` property. -/
def rustIsWhitespace (c : Char) : Bool :=
  c.toNat ∈ [0x09, 0x0A, 0x0B, 0x0C, 0x0D, 0x20, 0x85, 0xA0, 0x1680,
    0x2000, 0x2001, 0x2002, 0x2003, 0x2004, 0x2005, 0x2006, 0x2007, 0x2008,
    0x2009, 0x200A, 0x2028, 0x2029, 0x202F, 0x205F, 0x3000]

/-- ASCII lowercasing of one character (`u8::to_ascii_lowercase`, and the
per-character folding SQLite's default `LIKE` applies). -/
def asciiLowerChar (c : Char) : Char :=
  if 'A' ≤ c ∧ c ≤ 'Z' then Char.ofNat (c.toNat + 32) else c

/-- ASCII uppercasing of one character (`char::to_ascii_uppercase`). -/
def asciiUpperChar (c : Char) : Char :=
  if 'a' ≤ c ∧ c ≤ 'z' then Char.ofNat (c.toNat - 32) else c

/-- Rust `char`-level lowercase mapping as used by `str::to_lowercase`,
restricted to the character classes exercised in this development: ASCII
letters map to their lowercase forms and U+0130 (LATIN CAPITAL LETTER I
WITH DOT ABOVE) maps to the two-character string U+0069 U+0307; every
other character is left unchanged. -/
def rustCharLower (c : Char) : List Char :=
  if 'A' ≤ c ∧ c ≤ 'Z' then [Char.ofNat (c.toNat + 32)]
  else if c.toNat = 0x130 then [Char.ofNat 0x69, Char.ofNat 0x307]
  else [c]

/-- `str::to_lowercase` under the mapping above. -/
def rustToLower (s : List Char) : List Char := s.flatMap rustCharLower

/-- `str::trim`: strip leading and trailing whitespace. -/
def rustTrim (s : List Char) : List Char :=
  ((s.dropWhile rustIsWhitespace).reverse.dropWhile rustIsWhitespace).reverse

/-! ## `detect_and_decode` (crates/store/src/text_utils.rs) -/

/-- Is `b` a UTF-8 continuation byte. -/
def utf8Cont (b : Nat) : Bool := 0x80 ≤ b ∧ b ≤ 0xBF

/-- Valid first continuation byte of a three-byte sequence with lead `b`
(E0 requires A0..BF, ED requires 80..9F, otherwise 80..BF). -/
def utf8Cont3 (b b1 : Nat) : Bool :=
  if b = 0xE0 then 0xA0 ≤ b1 ∧ b1 ≤ 0xBF
  else if b = 0xED then 0x80 ≤ b1 ∧ b1 ≤ 0x9F
  else utf8Cont b1

/-- Valid first continuation byte of a four-byte sequence with lead `b`
(F0 requires 90..BF, F4 requires 80..8F, otherwise 80..BF). -/
def utf8Cont4 (b b1 : Nat) : Bool :=
  if b = 0xF0 then 0x90 ≤ b1 ∧ b1 ≤ 0xBF
  else if b = 0xF4 then 0x80 ≤ b1 ∧ b1 ≤ 0x8F
  else utf8Cont b1

/-- U+FFFD REPLACEMENT CHARACTER. -/
def replChar : Char := Char.ofNat 0xFFFD

/-- `String::from_utf8_lossy`, fuelled by the length of the byte list:
each maximal valid prefix of an ill-formed sequence is replaced by one
U+FFFD (the substitution-of-maximal-subparts policy Rust implements).
Every step consumes at least one byte and one unit of fuel, so fuel equal
to the list length always suffices. -/
def utf8LossyAux : Nat → List Nat → List Char
  | 0, _ => []
  | _, [] => []
  | fuel + 1, b :: rest =>
    if b < 0x80 then Char.ofNat b :: utf8LossyAux fuel rest
    else if b < 0xC2 then replChar :: utf8LossyAux fuel rest
    else if b ≤ 0xDF then
      match rest with
      | b1 :: rest1 =>
        if utf8Cont b1 then
          Char.ofNat ((b - 0xC0) * 64 + (b1 - 0x80)) :: utf8LossyAux fuel rest1
        else replChar :: utf8LossyAux fuel rest
      | [] => [replChar]
    else if b ≤ 0xEF then
      match rest with
      | b1 :: rest1 =>
        if utf8Cont3 b b1 then
          match rest1 with
          | b2 :: rest2 =>
            if utf8Cont b2 then
              Char.ofNat ((b - 0xE0) * 4096 + (b1 - 0x80) * 64 + (b2 - 0x80)) ::
                utf8LossyAux fuel rest2
            else replChar :: utf8LossyAux fuel rest1
          | [] => [replChar]
        else replChar :: utf8LossyAux fuel rest
      | [] => [replChar]
    else if b ≤ 0xF4 then
      match rest with
      | b1 :: rest1 =>
        if utf8Cont4 b b1 then
          match rest1 with
          | b2 :: rest2 =>
            if utf8Cont b2 then
              match rest2 with
              | b3 :: rest3 =>
                if utf8Cont b3 then
                  Char.ofNat ((b - 0xF0) * 0x40000 + (b1 - 0x80) * 4096 +
                      (b2 - 0x80) * 64 + (b3 - 0x80)) :: utf8LossyAux fuel rest3
                else replChar :: utf8LossyAux fuel rest2
              | [] => [replChar]
            else replChar :: utf8LossyAux fuel rest1
          | [] => [replChar]
        else replChar :: utf8LossyAux fuel rest
      | [] => [replChar]
    else replChar :: utf8LossyAux fuel rest

/-- `String::from_utf8_lossy` on a byte list. -/
def utf8Lossy (bytes : List Nat) : List Char := utf8LossyAux bytes.length bytes

/-- `bytes.chunks_exact(2).map(u16::from_xx_bytes)`: pair up the bytes,
silently dropping a trailing odd byte, little-endian when `le`. -/
def utf16Units (le : Bool) : List Nat → List Nat
  | b0 :: b1 :: rest =>
      (if le then b0 + 256 * b1 else 256 * b0 + b1) :: utf16Units le rest
  | _ => []

/-- `String::from_utf16`: surrogate pairing; `none` models
`FromUtf16Error` (an unpaired surrogate). -/
def utf16Chars : List Nat → Option (List Char)
  | [] => some []
  | u :: rest =>
    if u < 0xD800 ∨ 0xDFFF < u then (utf16Chars rest).map (Char.ofNat u :: ·)
    else if u ≤ 0xDBFF then
      match rest with
      | v :: rest2 =>
        if 0xDC00 ≤ v ∧ v ≤ 0xDFFF then
          (utf16Chars rest2).map
            (Char.ofNat (0x10000 + (u - 0xD800) * 0x400 + (v - 0xDC00)) :: ·)
        else none
      | [] => none
    else none

/-- `detect_and_decode` from `crates/store/src/text_utils.rs`.  The Rust
error messages interpolate the `FromUtf16Error`; the model keeps the fixed
prefix of the message. -/
def detectAndDecode (bytes : List Nat) : Except AppError (List Char × Encoding) :=
  if bytes.take 3 = [0xEF, 0xBB, 0xBF] then
    .ok (utf8Lossy (bytes.drop 3), .utf8WithBom)
  else if bytes.take 2 = [0xFF, 0xFE] then
    match utf16Chars (utf16Units true (bytes.drop 2)) with
    | some t => .ok (t, .utf16Le)
    | none => .error (AppError.io "Invalid UTF-16 LE")
  else if bytes.take 2 = [0xFE, 0xFF] then
    match utf16Chars (utf16Units false (bytes.drop 2)) with
    | some t => .ok (t, .utf16Be)
    | none => .error (AppError.io "Invalid UTF-16 BE")
  else .ok (utf8Lossy bytes, .utf8)

/-! ## File-name utilities (crates/store/src/file_utils.rs and core) -/

/-- First index at which `needle` occurs as a contiguous sublist of `hay`
(Rust `str::find` / `str::contains` on the corresponding element lists). -/
def subIndex {α : Type} [DecidableEq α] (needle : List α) : List α → Option Nat
  | [] => if needle.isPrefixOf [] then some 0 else none
  | a :: t =>
    if needle.isPrefixOf (a :: t) then some 0
    else (subIndex needle t).map (· + 1)

/-- `str::contains` for sublists. -/
def containsSub {α : Type} [DecidableEq α] (needle hay : List α) : Bool :=
  (subIndex needle hay).isSome

/-- `Path::file_name` of a relative path string: everything after the last
`/`. -/
def lastSegment (s : List Char) : List Char :=
  (s.reverse.takeWhile (fun c => decide (c ≠ '/'))).reverse

/-- `path.file_name().and_then(to_str).unwrap_or("unknown")`. -/
def fileNameOr (s : List Char) : List Char :=
  if lastSegment s = [] then "unknown".data else lastSegment s

/-- Rust `Path::file_stem`/`Path::extension` on a file name: split at the
last `.`, except that a leading `.` (a dotfile) does not start an
extension. -/
def dotSplit (name : List Char) : List Char × Option (List Char) :=
  let rev := name.reverse
  let afterRev := rev.takeWhile (fun c => decide (c ≠ '.'))
  if afterRev.length = rev.length then (name, none)
  else
    let stemRev := rev.drop (afterRev.length + 1)
    if stemRev = [] then (name, none)
    else (stemRev.reverse, some afterRev.reverse)

/-- `INDEXABLE_EXTENSIONS` from `crates/store/src/file_utils.rs`. -/
def indexableExtensions : List (List Char) :=
  ["md", "markdown", "mdx", "txt"].map String.data

/-- `is_indexable_text_path` from `crates/store/src/file_utils.rs`:
lowercase the extension (empty when absent) and test membership. -/
def isIndexablePath (relPath : List Char) : Bool :=
  let ext := ((dotSplit (lastSegment relPath)).2).getD []
  decide (rustToLower ext ∈ indexableExtensions)

/-- `CONFLICT_PATTERNS` from `crates/core/src/lib.rs`. -/
def conflictPatterns : List (List Char) :=
  ["(conflict)", "'s conflicted copy", ".conflicted copy", " (conflicted copy",
    " conflicted copy)", "(conflicted copy", "conflicted copy"].map String.data

/-- `is_conflicted_filename` from `crates/core/src/lib.rs`. -/
def isConflictedFilename (filename : List Char) : Bool :=
  let lower := rustToLower filename
  conflictPatterns.any (fun p => containsSub p lower)

/-- `str::split_whitespace`: maximal runs of non-whitespace characters. -/
def splitWsAux : List Char → List Char → List (List Char)
  | [], cur => if cur = [] then [] else [cur.reverse]
  | c :: rest, cur =>
    if rustIsWhitespace c then
      if cur = [] then splitWsAux rest [] else cur.reverse :: splitWsAux rest []
    else splitWsAux rest (c :: cur)

def splitWhitespace (s : List Char) : List (List Char) := splitWsAux s []

/-- SQL `COALESCE` on two nullable values. -/
def coalesce {α : Type} : Option α → Option α → Option α
  | some a, _ => some a
  | none, b => b

/-! ## Document metadata (crates/store/src/lib.rs) -/

/-- The out-of-scope collaborators `doc_save`/`read_doc_metadata` call:
`MarkdownEngine::metadata` (title and word count, may fail) and
`text_utils::hash_text` (a `DefaultHasher` digest).  Both are opaque pure
functions from the store's point of view, so the model takes them as
parameters. -/
structure Collab where
  mdMeta : List Char → Except Unit (Option (List Char) × Nat)
  hashText : List Char → List Char

/-- `Store::fallback_title_from_path`: the file stem of the relative
path. -/
def fallbackTitleFromPath (relPath : List Char) : Option (List Char) :=
  if lastSegment relPath = [] then none
  else some (dotSplit (lastSegment relPath)).1

/-- `Store::derive_text_metadata`: collaborator metadata with fallback to
the file-stem title and a whitespace token count on collaborator
failure. -/
def deriveTextMetadata (c : Collab) (text relPath : List Char) :
    Option (List Char) × Nat :=
  match c.mdMeta text with
  | .ok (title, wordCount) => (coalesce title (fallbackTitleFromPath relPath), wordCount)
  | .error _ => (fallbackTitleFromPath relPath, (splitWhitespace text).length)

/-- Modelled from the spec: `LineEnding::detect` is repository code whose
source is not part of the provided tree (only its callers and tests are);
§4.3 says it "detects line-ending style by counting CRLF vs bare-LF
occurrences".  0 encodes `Lf`, 1 encodes `CrLf` as in the catalog
schema. -/
def detectLineEnding (text : List Char) : Nat :=
  let crlf := (List.range text.length).countP
    (fun i => decide ((text.drop i).take 2 = ['\r', '\n']))
  let bare := text.count '\n' - crlf
  if crlf > bare then 1 else 0

/-- Modelled from the spec: the `Encoding → i32` column mapping is
repository code outside the provided tree; the schema default 0 is the
default `Utf8` variant and the remaining variants are numbered in
declaration order. -/
def encodingIdx : Encoding → Nat
  | .utf8 => 0
  | .utf8WithBom => 1
  | .utf16Le => 2
  | .utf16Be => 3

/-- In-memory `DocMeta` (crates/core/src/lib.rs), restricted to the fields
the store reads or writes (`id` is carried separately as
`location_id`/`rel_path`). -/
structure DocMeta where
  filename : List Char
  sizeBytes : Nat
  mtime : Int
  createdAt : Option Int
  contentHash : Option (List Char)
  encoding : Encoding
  lineEnding : Nat
  isConflict : Bool
  title : Option (List Char)
  wordCount : Option Nat
deriving Repr, DecidableEq

/-- One file as the filesystem presents it to the store: its stat results
and the two ways the store reads its text (`fs::read_to_string`, which is
`none` on non-UTF-8 bytes, and `read_file_text_with_detection`, which is
`none` when `detect_and_decode` fails). -/
structure FsFile where
  relPath : List Char
  sizeBytes : Nat
  mtime : Int
  createdAt : Option Int
  textStrict : Option (List Char)
  textDetect : Option (List Char)
deriving Repr, DecidableEq

/-- `Store::read_doc_metadata` (with `filename` computed from the relative
path the way both call sites do). -/
def readDocMetadata (c : Collab) (f : FsFile) : DocMeta :=
  let filename := fileNameOr f.relPath
  let isConflict := isConflictedFilename filename
  let textContent := if isIndexablePath f.relPath then f.textStrict else none
  let titleWc : Option (List Char) × Option Nat :=
    match textContent with
    | some content =>
        let d := deriveTextMetadata c content f.relPath
        (d.1, some d.2)
    | none => (fallbackTitleFromPath f.relPath, none)
  { filename := filename
    sizeBytes := f.sizeBytes
    mtime := f.mtime
    createdAt := f.createdAt
    contentHash := textContent.map c.hashText
    encoding := .utf8
    lineEnding := 0
    isConflict := isConflict
    title := titleWc.1
    wordCount := titleWc.2 }

/-! ## The SQLite tables (crates/store/src/lib.rs, `init_schema`) -/

/-- One row of the `documents` table. -/
structure DocRow where
  locationId : Int
  relPath : List Char
  filename : List Char
  sizeBytes : Nat
  mtime : Int
  createdAt : Option Int
  contentHash : Option (List Char)
  encoding : Nat
  lineEnding : Nat
  isConflict : Bool
  title : Option (List Char)
  wordCount : Option Nat
  updatedAt : Int
deriving Repr, DecidableEq

/-- One row of the `docs_fts` FTS5 table. -/
structure FtsRow where
  locationId : Int
  relPath : List Char
  title : List Char
  content : List Char
deriving Repr, DecidableEq

/-- The catalog and index contents. -/
structure DbState where
  documents : List DocRow
  fts : List FtsRow
deriving Repr, DecidableEq

/-- Key predicate used by every per-document SQL statement. -/
def DocRow.hasKey (r : DocRow) (locationId : Int) (relPath : List Char) : Prop :=
  r.locationId = locationId ∧ r.relPath = relPath

instance (r : DocRow) (l : Int) (p : List Char) : Decidable (r.hasKey l p) := by
  unfold DocRow.hasKey; infer_instance

def FtsRow.hasKey (r : FtsRow) (locationId : Int) (relPath : List Char) : Prop :=
  r.locationId = locationId ∧ r.relPath = relPath

instance (r : FtsRow) (l : Int) (p : List Char) : Decidable (r.hasKey l p) := by
  unfold FtsRow.hasKey; infer_instance

/-- The freshly inserted `documents` row of `update_doc_in_catalog`. -/
def docRowOfMeta (locationId : Int) (relPath : List Char) (m : DocMeta) (now : Int) :
    DocRow :=
  { locationId := locationId
    relPath := relPath
    filename := m.filename
    sizeBytes := m.sizeBytes
    mtime := m.mtime
    createdAt := m.createdAt
    contentHash := m.contentHash
    encoding := encodingIdx m.encoding
    lineEnding := m.lineEnding
    isConflict := m.isConflict
    title := m.title
    wordCount := m.wordCount
    updatedAt := now }

/-- The `ON CONFLICT .. DO UPDATE` arm of `update_doc_in_catalog`:
every column is replaced by the excluded value except `created_at`, which
is `COALESCE(documents.created_at, excluded.created_at)`. -/
def applyDocUpdate (r : DocRow) (m : DocMeta) (now : Int) : DocRow :=
  { r with
    filename := m.filename
    sizeBytes := m.sizeBytes
    mtime := m.mtime
    createdAt := coalesce r.createdAt m.createdAt
    contentHash := m.contentHash
    encoding := encodingIdx m.encoding
    lineEnding := m.lineEnding
    isConflict := m.isConflict
    title := m.title
    wordCount := m.wordCount
    updatedAt := now }

/-- `Store::update_doc_in_catalog`: `INSERT .. ON CONFLICT(location_id,
rel_path) DO UPDATE` against the `documents` list, with
`updated_at = Utc::now()`. -/
def updateDocInCatalog (docs : List DocRow) (locationId : Int) (relPath : List Char)
    (m : DocMeta) (now : Int) : List DocRow :=
  if docs.any (fun r => decide (r.hasKey locationId relPath)) then
    docs.map (fun r =>
      if r.hasKey locationId relPath then applyDocUpdate r m now else r)
  else docs ++ [docRowOfMeta locationId relPath m now]

/-- `Store::upsert_fts_entry`: `DELETE` by key then `INSERT`. -/
def upsertFtsEntry (fts : List FtsRow) (locationId : Int) (relPath : List Char)
    (title content : List Char) : List FtsRow :=
  fts.filter (fun r => decide (¬ r.hasKey locationId relPath)) ++
    [⟨locationId, relPath, title, content⟩]

/-- `Store::remove_fts_entry`: `DELETE` by key. -/
def removeFtsEntry (fts : List FtsRow) (locationId : Int) (relPath : List Char) :
    List FtsRow :=
  fts.filter (fun r => decide (¬ r.hasKey locationId relPath))

/-- `Store::index_document_text`: non-indexable paths drop any stale FTS
row, indexable paths upsert with the meta title, falling back to the file
stem and then `"Untitled"`. -/
def indexDocumentText (fts : List FtsRow) (locationId : Int) (relPath : List Char)
    (m : DocMeta) (text : List Char) : List FtsRow :=
  if ¬ isIndexablePath relPath then removeFtsEntry fts locationId relPath
  else
    let title := (coalesce m.title (fallbackTitleFromPath relPath)).getD "Untitled".data
    upsertFtsEntry fts locationId relPath title text

/-- `Store::remove_document_from_index`: `DELETE` by key from both
tables. -/
def removeDocumentFromIndex (st : DbState) (locationId : Int) (relPath : List Char) :
    DbState :=
  { documents := st.documents.filter (fun r => decide (¬ r.hasKey locationId relPath))
    fts := removeFtsEntry st.fts locationId relPath }

/-! ## `doc_save` (crates/store/src/lib.rs) -/

/-- The filesystem stat results `doc_save` observes after writing
(`size_bytes`, `mtime`, `created_at`). -/
structure StatResult where
  sizeBytes : Nat
  mtime : Int
  createdAt : Option Int
deriving Repr, DecidableEq

/-- The `new_meta` value `doc_save` constructs from the saved text and the
post-write stat. -/
def docSaveMeta (c : Collab) (relPath text : List Char) (stat : StatResult) : DocMeta :=
  let d := deriveTextMetadata c text relPath
  { filename := fileNameOr relPath
    sizeBytes := stat.sizeBytes
    mtime := stat.mtime
    createdAt := stat.createdAt
    contentHash := some (c.hashText text)
    encoding := .utf8
    lineEnding := detectLineEnding text
    isConflict := isConflictedFilename relPath
    title := d.1
    wordCount := some d.2 }

/-- The catalog/index effect of `Store::doc_save` (the disk write itself
and its `SaveResult` envelope are orthogonal to the catalog claims): upsert
the catalog row, then index the text. -/
def docSave (c : Collab) (st : DbState) (locationId : Int) (relPath text : List Char)
    (stat : StatResult) (now : Int) : DbState :=
  let m := docSaveMeta c relPath text stat
  { documents := updateDocInCatalog st.documents locationId relPath m now
    fts := indexDocumentText st.fts locationId relPath m text }

/-! ## `reconcile_location_index` (crates/store/src/lib.rs) -/

/-- A registered location's slice of the filesystem as
`collect_file_paths_recursive` enumerates it: whether the root exists and
the file entries in enumeration order. -/
structure LocFs where
  rootExists : Bool
  files : List FsFile
deriving Repr, DecidableEq

/-- The per-file body of the reconciliation loop: catalog upsert, then
FTS upsert / stale-row removal, counting indexed files. -/
def reconcileStep (c : Collab) (locationId : Int) (now : Int)
    (acc : DbState × Nat) (f : FsFile) : DbState × Nat :=
  let st := acc.1
  let m := readDocMetadata c f
  let docs := updateDocInCatalog st.documents locationId f.relPath m now
  if isIndexablePath f.relPath then
    match f.textDetect with
    | some text =>
        (⟨docs, indexDocumentText st.fts locationId f.relPath m text⟩, acc.2 + 1)
    | none => (⟨docs, removeFtsEntry st.fts locationId f.relPath⟩, acc.2)
  else (⟨docs, removeFtsEntry st.fts locationId f.relPath⟩, acc.2)

/-- `Store::reconcile_location_index`: walk every file, upserting catalog
and index rows, then delete every catalog row of the location whose
`rel_path` was not seen together with its FTS row.  Returns the indexed
count and the new state. -/
def reconcileLocationIndex (c : Collab) (fs : LocFs) (locationId : Int) (now : Int)
    (st : DbState) : Nat × DbState :=
  if ¬ fs.rootExists then (0, st)
  else
    let walked := fs.files.foldl (reconcileStep c locationId now) (st, 0)
    let seen : List (List Char) := fs.files.map (·.relPath)
    let stale : List (List Char) := (walked.1.documents.filter
      (fun r => decide (r.locationId = locationId ∧ r.relPath ∉ seen))).map (·.relPath)
    let docs := walked.1.documents.filter
      (fun r => decide (¬ (r.locationId = locationId ∧ r.relPath ∈ stale)))
    let fts := walked.1.fts.filter
      (fun r => decide (¬ (r.locationId = locationId ∧ r.relPath ∈ stale)))
    (walked.2, ⟨docs, fts⟩)

/-! ## Locations and the directory-operations filesystem
(crates/store/src/lib.rs) -/

/-- A row of the `locations` table / `LocationDescriptor`. -/
structure Location where
  id : Int
  name : List Char
  rootPath : List Char
  addedAt : Int
deriving Repr, DecidableEq

/-- `Store::location_get`: `SELECT .. WHERE id = ?`. -/
def locationGet (locs : List Location) (locationId : Int) : Option Location :=
  locs.find? (fun l => decide (l.id = locationId))

/-- A filesystem entry as the directory operations probe it. -/
structure FsEntry where
  path : List Char
  isDir : Bool
deriving Repr, DecidableEq

/-- The filesystem the directory operations mutate. -/
structure DirFs where
  entries : List FsEntry
deriving Repr, DecidableEq

def fsExists (fs : DirFs) (p : List Char) : Bool :=
  fs.entries.any (fun e => decide (e.path = p))

def fsIsDir (fs : DirFs) (p : List Char) : Bool :=
  fs.entries.any (fun e => decide (e.path = p ∧ e.isDir))

/-- `Path::parent` of a path string: strip the final `/segment`. -/
def parentPath (p : List Char) : List Char :=
  ((p.reverse.dropWhile (fun c => decide (c ≠ '/'))).drop 1).reverse

/-- The proper non-empty initial `/`-joined runs of a path, shortest
first. -/
def pathPrefixRuns (p : List Char) : List (List Char) :=
  (List.range p.length).filterMap (fun i =>
    if p.get? i = some '/' then some (p.take i) else none) ++ [p]

/-- `fs::create_dir_all`: create the directory and any missing
ancestors. -/
def mkdirAll (fs : DirFs) (p : List Char) : DirFs :=
  ⟨fs.entries ++ ((pathPrefixRuns p).filter (fun q => ¬ fsExists fs q)).map
    (fun q => ⟨q, true⟩)⟩

/-- `fs::rename` of a directory subtree: entries at the old path or under
`old/` move under the new path. -/
def fsRename (fs : DirFs) (old new : List Char) : DirFs :=
  ⟨fs.entries.map (fun e =>
    if e.path = old then { e with path := new }
    else if (old ++ ['/']).isPrefixOf e.path then
      { e with path := new ++ e.path.drop old.length }
    else e)⟩

/-- `impl From<PathError> for AppError` (crates/core/src/lib.rs); the
`context` the traversal arm attaches is dropped with the modelled-out
`context` field. -/
def pathErrorToApp : PathError → AppError
  | .pathTraversalAttempt => AppError.invalidPath "Path traversal attempt detected"
  | .emptyPath => AppError.invalidPath "Empty path is not allowed"
  | .invalidPath msg => AppError.invalidPath msg

/-! ## SQL `LIKE` and the directory path rewrite
(crates/store/src/lib.rs) -/

/-- SQLite `LIKE .. ESCAPE '\'`: `%` matches any run, `_` any single
character, a backslash makes the following pattern character literal, and
plain characters compare ASCII-case-insensitively (SQLite's default
`LIKE` folding). -/
def likeMatch : List Char → List Char → Bool
  | [], s => s.isEmpty
  | p :: ps, s =>
    if p = '%' then
      likeMatch ps s ||
        (match s with
         | [] => false
         | _ :: t => likeMatch (p :: ps) t)
    else if p = '_' then
      match s with
      | [] => false
      | _ :: t => likeMatch ps t
    else if p = '\\' then
      match ps with
      | [] => false
      | q :: ps2 =>
        match s with
        | [] => false
        | c :: t => asciiLowerChar c = asciiLowerChar q && likeMatch ps2 t
    else
      match s with
      | [] => false
      | c :: t => asciiLowerChar c = asciiLowerChar p && likeMatch ps t
termination_by pat s => (pat.length, s.length)

/-- The chained `.replace('\\', r"\\").replace('%', r"\%").replace('_',
r"\_")` of `update_directory_paths_in_index`: each occurrence of the three
characters is prefixed with a backslash (the sequential replaces commute
with this per-character form because the inserted backslashes precede `%`
and `_`, which the later replaces do not touch). -/
def escapeLike (s : List Char) : List Char :=
  s.flatMap (fun ch =>
    if ch = '\\' ∨ ch = '%' ∨ ch = '_' then ['\\', ch] else [ch])

/-- The row predicate of both `UPDATE` statements in
`update_directory_paths_in_index`: `location_id = ? AND (rel_path = ?1 OR
rel_path LIKE ?4 ESCAPE '\')` with the pattern `escape(old) ++ "/%"`. -/
def dirRowMatches (locationId : Int) (oldRel : List Char) (rowLoc : Int)
    (rowRel : List Char) : Prop :=
  rowLoc = locationId ∧
    (rowRel = oldRel ∨ likeMatch (escapeLike oldRel ++ "/%".data) rowRel = true)

instance (l : Int) (o : List Char) (rl : Int) (rr : List Char) :
    Decidable (dirRowMatches l o rl rr) := by
  unfold dirRowMatches; infer_instance

/-- `Store::update_directory_paths_in_index`: rewrite
`rel_path = new || substr(rel_path, length(old) + 1)` (SQLite counts
characters) on every matching row of both tables, refreshing `updated_at`
on the `documents` rows only. -/
def updateDirectoryPathsInIndex (db : DbState) (locationId : Int)
    (oldRel newRel : List Char) (now : Int) : DbState :=
  { documents := db.documents.map (fun r =>
      if dirRowMatches locationId oldRel r.locationId r.relPath then
        { r with relPath := newRel ++ r.relPath.drop oldRel.length, updatedAt := now }
      else r)
    fts := db.fts.map (fun r =>
      if dirRowMatches locationId oldRel r.locationId r.relPath then
        { r with relPath := newRel ++ r.relPath.drop oldRel.length }
      else r) }

/-! ## `dir_move` (crates/store/src/lib.rs) -/

/-- The whole mutable state `dir_move` can touch. -/
structure SysState where
  locations : List Location
  fs : DirFs
  db : DbState
deriving Repr, DecidableEq

/-- `PathBuf::to_string_lossy` of a normalized relative path: its segments
joined with `/`. -/
def joinSegs (segs : List String) : List Char :=
  (String.intercalate "/" segs).data

/-- `root.join(rel)` at the string level. -/
def joinUnderRoot (root rel : List Char) : List Char := root ++ '/' :: rel

/-- `Store::dir_move`.  Errors leave the state untouched; the successful
path renames on disk and rewrites the catalog/index rows. -/
def dirMove (st : SysState) (locationId : Int)
    (relPath newRelPath : List PathComponent) (now : Int) :
    Except AppError (List String) × SysState :=
  match locationGet st.locations locationId with
  | none => (.error (AppError.notFound "Location not found"), st)
  | some loc =>
    match normalizeRelativePath relPath with
    | .error e => (.error (pathErrorToApp e), st)
    | .ok normRel =>
      match normalizeRelativePath newRelPath with
      | .error e => (.error (pathErrorToApp e), st)
      | .ok normNewRel =>
        let oldStr := joinSegs normRel
        let newStr := joinSegs normNewRel
        if newStr = oldStr ∨ (oldStr ++ ['/']).isPrefixOf newStr then
          (.error (AppError.invalidPath
            "Cannot move a directory into itself or one of its descendants"), st)
        else
          let currentFull := joinUnderRoot loc.rootPath oldStr
          let nextFull := joinUnderRoot loc.rootPath newStr
          if ¬ fsExists st.fs currentFull then
            (.error (AppError.notFound "Directory not found"), st)
          else if ¬ fsIsDir st.fs currentFull then
            (.error (AppError.invalidPath "Path is not a directory"), st)
          else if fsExists st.fs nextFull then
            (.error ⟨ErrorCode.conflict,
              "A file or directory already exists at the destination"⟩, st)
          else
            let fs1 := mkdirAll st.fs (parentPath nextFull)
            let fs2 := fsRename fs1 currentFull nextFull
            let db2 := updateDirectoryPathsInIndex st.db locationId oldStr newStr now
            (.ok normNewRel, { st with fs := fs2, db := db2 })

/-! ## `doc_list` sorting (crates/store/src/lib.rs) -/

/-- `DocSortField` from `crates/core/src/lib.rs`. -/
inductive DocSortField where
  | name
  | modified
  | created
  | size
deriving Repr, DecidableEq

/-- `SortOrder` from `crates/core/src/lib.rs` (`Descending` is the
`Default`). -/
inductive SortOrder where
  | ascending
  | descending
deriving Repr, DecidableEq

/-- Rust `String::cmp` is byte-lexicographic, which on UTF-8 equals
code-point-lexicographic comparison. -/
def listCharLt : List Char → List Char → Bool
  | [], [] => false
  | [], _ :: _ => true
  | _ :: _, [] => false
  | a :: as, b :: bs =>
    if a.toNat < b.toNat then true
    else if b.toNat < a.toNat then false
    else listCharLt as bs

/-- `a.filename.cmp(&b.filename) ≠ Greater`: the `Name` arm of the
`doc_list` comparator as a merge-sort `le`. -/
def nameLe (a b : DocMeta) : Bool := ! listCharLt b.filename a.filename

/-- `b.mtime.cmp(&a.mtime) ≠ Greater`: the `Modified` arm. -/
def modifiedLe (a b : DocMeta) : Bool := decide (b.mtime ≤ a.mtime)

/-- The `Created` arm: present timestamps compare reversed, a present
timestamp sorts before an absent one. -/
def createdLe (a b : DocMeta) : Bool :=
  match a.createdAt, b.createdAt with
  | some x, some y => decide (y ≤ x)
  | some _, none => true
  | none, some _ => false
  | none, none => true

/-- `b.size_bytes.cmp(&a.size_bytes) ≠ Greater`: the `Size` arm. -/
def sizeLe (a b : DocMeta) : Bool := decide (b.sizeBytes ≤ a.sizeBytes)

def sortFieldLe : DocSortField → DocMeta → DocMeta → Bool
  | .name => nameLe
  | .modified => modifiedLe
  | .created => createdLe
  | .size => sizeLe

/-- The sorting phase of `Store::doc_list`: a stable sort by the field
comparator (`sort_by.unwrap_or(Modified)`), then a whole-list reversal
when the order is `Ascending`.  Rust's `sort_by` and `List.mergeSort` are
both stable, so ties keep enumeration order in both. -/
def docListSort (sortBy : Option DocSortField) (order : SortOrder)
    (docs : List DocMeta) : List DocMeta :=
  let sorted := docs.mergeSort (sortFieldLe (sortBy.getD .modified))
  match order with
  | .ascending => sorted.reverse
  | .descending => sorted

/-! ## Search (crates/store/src/lib.rs and text_utils.rs) -/

/-- `SearchFilters` from `crates/core/src/lib.rs`. -/
structure SearchFilters where
  locations : Option (List Int)
  fileTypes : Option (List (List Char))
  dateFrom : Option (List Char)
  dateTo : Option (List Char)
deriving Repr, DecidableEq

/-- `SearchMatch` from `crates/core/src/lib.rs` (`stop` is Rust's `end`, a
Lean keyword). -/
structure SearchMatch where
  start : Nat
  stop : Nat
deriving Repr, DecidableEq

/-- `SearchHit` from `crates/core/src/lib.rs`. -/
structure SearchHit where
  locationId : Int
  relPath : List Char
  title : List Char
  snippet : List Char
  line : Nat
  column : Nat
  spans : List SearchMatch
deriving Repr, DecidableEq

/-- `Store::search`: trim the query and return `Ok(vec![])` on an empty
result before consulting anything else; otherwise the trimmed query is
handed to the SQL/FTS5 engine, which is external and abstracted as
`runQuery`. -/
def search (runQuery : List Char → Option SearchFilters → Nat →
      Except AppError (List SearchHit))
    (query : List Char) (filters : Option SearchFilters) (limit : Nat) :
    Except AppError (List SearchHit) :=
  let normalized := rustTrim query
  if normalized = [] then .ok []
  else runQuery normalized filters limit

/-- `extract_highlight_matches` from `crates/store/src/text_utils.rs`:
walk the marked snippet, a `<<` records the current length **in bytes** of
the plain text accumulated so far, a `>>` closes any open span, and every
other character is copied.  `plainLen` carries `plain.len()` (a byte
count). -/
def extractHighlightAux : List Char → Nat → Option Nat → List SearchMatch →
    List Char × List SearchMatch
  | [], _, _, ms => ([], ms)
  | [c], plainLen, startIdx, ms =>
    let res := extractHighlightAux [] (plainLen + utf8Len c) startIdx ms
    (c :: res.1, res.2)
  | c :: d :: rest, plainLen, startIdx, ms =>
    if c = '<' ∧ d = '<' then extractHighlightAux rest plainLen (some plainLen) ms
    else if c = '>' ∧ d = '>' then
      match startIdx with
      | some s => extractHighlightAux rest plainLen none (ms ++ [⟨s, plainLen⟩])
      | none => extractHighlightAux rest plainLen none ms
    else
      let res := extractHighlightAux (d :: rest) (plainLen + utf8Len c) startIdx ms
      (c :: res.1, res.2)

def extractHighlightMatches (snippet : List Char) : List Char × List SearchMatch :=
  extractHighlightAux snippet 0 none []

/-- `str::trim_matches('"')`: strip every leading and trailing `"`. -/
def stripQuotes (t : List Char) : List Char :=
  ((t.dropWhile (fun c => decide (c = '"'))).reverse.dropWhile
    (fun c => decide (c = '"'))).reverse

/-- The token selection of `locate_query_position`: the first
whitespace-separated token whose ASCII uppercasing is not `AND`, `OR` or
`NOT`, defaulting to the whole query. -/
def firstSignificantToken (query : List Char) : List Char :=
  ((splitWhitespace query).find? (fun tok =>
    decide (¬ (tok.map asciiUpperChar = "AND".data ∨
      tok.map asciiUpperChar = "OR".data ∨
      tok.map asciiUpperChar = "NOT".data)))).getD query

/-- `&content[..byteIndex]`: the characters before byte `byteIndex`, or
`none` — a Rust panic — when the index is past the end or not a character
boundary. -/
def charPrefixAtByte : List Char → Nat → Option (List Char)
  | _, 0 => some []
  | [], _ + 1 => none
  | c :: rest, n + 1 =>
    if utf8Len c ≤ n + 1 then (charPrefixAtByte rest (n + 1 - utf8Len c)).map (c :: ·)
    else none

/-- `str::rsplit_once(sep)` projected to the part after the separator. -/
def rsplitTail (sep : Char) (p : List Char) : Option (List Char) :=
  if p.contains sep then
    some ((p.reverse.takeWhile (fun c => decide (c ≠ sep))).reverse)
  else none

/-- `locate_query_position` from `crates/store/src/text_utils.rs`.  The
byte index found in the lowercased content is used to slice the original
content; `none` models the panic when that index is not a valid boundary
of the original. -/
def locateQueryPosition (content query : List Char) : Option (Nat × Nat) :=
  let term := rustToLower (stripQuotes (firstSignificantToken query))
  if term = [] then some (1, 1)
  else
    let contentLower := rustToLower content
    match subIndex (strBytes term) (strBytes contentLower) with
    | none => some (1, 1)
    | some byteIndex =>
      match charPrefixAtByte content byteIndex with
      | none => none
      | some pre =>
        let line := pre.count '\n' + 1
        let column :=
          match rsplitTail '\n' pre with
          | some tl => tl.length + 1
          | none => pre.length + 1
        some (line, column)

/-! ## Derived lookups and normal forms used by the theorems -/

/-- `SELECT .. WHERE location_id = ? AND rel_path = ?` on `documents`. -/
def findDocRow (docs : List DocRow) (locationId : Int) (relPath : List Char) :
    Option DocRow :=
  docs.find? (fun r => decide (r.hasKey locationId relPath))

/-- The `(location_id, rel_path)` primary-key projection of the catalog. -/
def docKeys (docs : List DocRow) : List (Int × List Char) :=
  docs.map (fun r => (r.locationId, r.relPath))

/-- The `(location_id, rel_path)` key projection of the FTS table. -/
def ftsKeys (fts : List FtsRow) : List (Int × List Char) :=
  fts.map (fun r => (r.locationId, r.relPath))

/-- The first enumerated file with the given relative path. -/
def fileByRel (files : List FsFile) (relPath : List Char) : Option FsFile :=
  files.find? (fun f => decide (f.relPath = relPath))

/-- The effect one reconciliation pass has on a pre-existing catalog row:
rows of the location whose path was enumerated are updated with that
file's metadata, all others are untouched. -/
def updIfSeen (c : Collab) (locationId : Int) (files : List FsFile) (now : Int)
    (r : DocRow) : DocRow :=
  match fileByRel files r.relPath with
  | some f =>
      if r.locationId = locationId then applyDocUpdate r (readDocMetadata c f) now
      else r
  | none => r

/-- The catalog rows one reconciliation pass appends: one fresh row per
enumerated file whose key is not yet in the catalog. -/
def freshRows (c : Collab) (locationId : Int) (docs : List DocRow)
    (files : List FsFile) (now : Int) : List DocRow :=
  (files.filter (fun f =>
    ! docs.any (fun r => decide (r.hasKey locationId f.relPath)))).map
    (fun f => docRowOfMeta locationId f.relPath (readDocMetadata c f) now)

/-- The FTS row a reconciliation pass leaves for one file: present exactly
when the extension is indexable and the text decodes. -/
def canonicalFtsRow (c : Collab) (locationId : Int) (f : FsFile) : Option FtsRow :=
  if isIndexablePath f.relPath then
    match f.textDetect with
    | some text =>
        some ⟨locationId, f.relPath,
          (coalesce (readDocMetadata c f).title
            (fallbackTitleFromPath f.relPath)).getD "Untitled".data, text⟩
    | none => none
  else none

/-- The FTS rows of the location after one reconciliation pass, in
enumeration order. -/
def canonicalFts (c : Collab) (locationId : Int) (files : List FsFile) : List FtsRow :=
  files.filterMap (canonicalFtsRow c locationId)

/-- The documents-table effect of one reconciliation walk: the per-file
catalog upserts in enumeration order. -/
def foldDocs (c : Collab) (locationId : Int) (now : Int) (files : List FsFile)
    (docs : List DocRow) : List DocRow :=
  files.foldl (fun ds f =>
    updateDocInCatalog ds locationId f.relPath (readDocMetadata c f) now) docs

/-- The FTS effect of one file of the reconciliation walk. -/
def ftsStep (c : Collab) (locationId : Int) (fts : List FtsRow) (f : FsFile) :
    List FtsRow :=
  if isIndexablePath f.relPath then
    match f.textDetect with
    | some text => indexDocumentText fts locationId f.relPath (readDocMetadata c f) text
    | none => removeFtsEntry fts locationId f.relPath
  else removeFtsEntry fts locationId f.relPath

/-- The FTS effect of one reconciliation walk. -/
def foldFts (c : Collab) (locationId : Int) (files : List FsFile)
    (fts : List FtsRow) : List FtsRow :=
  files.foldl (ftsStep c locationId) fts

/-- The indexed count one reconciliation walk reports. -/
def countIdx (files : List FsFile) : Nat :=
  files.countP (fun f => isIndexablePath f.relPath && f.textDetect.isSome)

/-- The claim's character-level reading of `locate_query_position`: the
character index of the first case-insensitive occurrence of the first
significant token, with `line` the number of newlines before it plus one
and `column` the number of characters since the last newline plus one. -/
def locateSpecAscii (content query : List Char) : Nat × Nat :=
  let term := (stripQuotes (firstSignificantToken query)).map asciiLowerChar
  if term = [] then (1, 1)
  else
    match subIndex term (content.map asciiLowerChar) with
    | none => (1, 1)
    | some j =>
      let pre := content.take j
      (pre.count '\n' + 1,
        (pre.reverse.takeWhile (fun ch => decide (ch ≠ '\n'))).length + 1)

/-- The per-row hit assembly of `Store::search`: the snippet and highlight
spans come from `extract_highlight_matches` on the marked snippet, the
`(line, column)` from `locate_query_position` on the stored content
(`none` when the latter panics). -/
def searchHitOfRow (locationId : Int) (relPath title snippetMarked content
    query : List Char) : Option SearchHit :=
  let ex := extractHighlightMatches snippetMarked
  (locateQueryPosition content query).map
    (fun lc => ⟨locationId, relPath, title, ex.1, lc.1, lc.2, ex.2⟩)

/-- The `(location_id, rel_path)` key of a catalog row. -/
def DocRow.keyOf (r : DocRow) : Int × List Char :=
  (r.locationId, r.relPath)

/-- The `(location_id, rel_path)` key of an FTS row. -/
def FtsRow.keyOf (r : FtsRow) : Int × List Char :=
  (r.locationId, r.relPath)

/-- What a second reconciliation pass with no filesystem change does to a
catalog row left by the first pass: rows of the location whose path is
enumerated get `updated_at` refreshed, everything else is untouched. -/
def reconcileTouch (locationId : Int) (files : List FsFile) (now : Int)
    (r : DocRow) : DocRow :=
  if r.locationId = locationId ∧ r.relPath ∈ files.map (·.relPath) then
    { r with updatedAt := now }
  else r

/-- The `documents` table after one reconciliation walk, before the stale
sweep: updated pre-existing rows followed by the fresh inserts. -/
def passDocs (c : Collab) (locationId now : Int) (files : List FsFile)
    (docs : List DocRow) : List DocRow :=
  docs.map (updIfSeen c locationId files now) ++
    freshRows c locationId docs files now

/-- The stale `rel_path`s the sweep collects from a walked catalog. -/
def staleOf (locationId : Int) (files : List FsFile) (d : List DocRow) :
    List (List Char) :=
  (d.filter (fun r =>
    decide (r.locationId = locationId ∧
      r.relPath ∉ files.map (·.relPath)))).map (·.relPath)

/-- One whole reconciliation pass on the database state: walk, then sweep
both tables by the stale paths. -/
def reconPass (c : Collab) (locationId now : Int) (files : List FsFile)
    (st : DbState) : DbState :=
  ⟨(passDocs c locationId now files st.documents).filter (fun r =>
      decide (¬ (r.locationId = locationId ∧
        r.relPath ∈ staleOf locationId files
          (passDocs c locationId now files st.documents)))),
   (st.fts.filter (fun r =>
       ! files.any (fun f => decide (r.hasKey locationId f.relPath))) ++
     canonicalFts c locationId files).filter (fun r =>
      decide (¬ (r.locationId = locationId ∧
        r.relPath ∈ staleOf locationId files
          (passDocs c locationId now files st.documents))))⟩

end Writer

namespace Writer

/-! ## Theorems for C1 -/

/-- C1. `normalize_relative_path` walks the components: `Normal` segments
are pushed, `CurDir` segments are skipped, a `ParentDir` pops the last
pushed segment and fails with `PathTraversalAttempt` when nothing remains
to pop (so `"a/../b"` normalizes to `"b"` while a leading `".."` fails);
root/prefix components fail with `InvalidPath`; an empty input or an empty
result fails with `EmptyPath`.  The normalized result is a list of plain
`Normal` segments by construction, so resolving it against a root always
yields a path that the root is a prefix of. -/
theorem C1_normalize_relative_path :
    (∀ acc s rest, normalizeWalk acc (.normal s :: rest) = normalizeWalk (acc ++ [s]) rest) ∧
    (∀ acc rest, normalizeWalk acc (.curDir :: rest) = normalizeWalk acc rest) ∧
    (∀ acc a rest, normalizeWalk (acc ++ [a]) (.parentDir :: rest) = normalizeWalk acc rest) ∧
    (∀ rest, normalizeWalk [] (.parentDir :: rest) = .error .pathTraversalAttempt) ∧
    (∀ acc rest, normalizeWalk acc (.rootDir :: rest) =
      .error (.invalidPath "Absolute paths are not allowed as relative paths")) ∧
    (∀ acc rest, normalizeWalk acc (.drivePre :: rest) =
      .error (.invalidPath "Absolute paths are not allowed as relative paths")) ∧
    (normalizeRelativePath [] = .error .emptyPath) ∧
    (∀ cs, cs ≠ [] → normalizeWalk [] cs = .ok [] →
      normalizeRelativePath cs = .error .emptyPath) ∧
    (normalizeRelativePath [.normal "a", .parentDir, .normal "b"] = .ok ["b"]) ∧
    (∀ rest, normalizeRelativePath (.parentDir :: rest) = .error .pathTraversalAttempt) ∧
    (∀ cs r root, normalizeRelativePath cs = .ok r → root <+: resolvePath root r) := by
  refine ⟨fun acc s rest => rfl, fun acc rest => rfl, ?_, fun rest => rfl, ?_, ?_,
    rfl, ?_, rfl, ?_, ?_⟩
  · intro acc a rest
    simp [normalizeWalk]
  · intro acc rest
    cases acc <;> rfl
  · intro acc rest
    cases acc <;> rfl
  · intro cs hne hwalk
    have hcs : cs.isEmpty = false := by
      cases cs with
      | nil => exact absurd rfl hne
      | cons x xs => rfl
    simp [normalizeRelativePath, hcs, hwalk]
  · intro rest
    rfl
  · intro cs r root _h
    exact List.prefix_append root r

/-- Closed witness for `C1_normalize_relative_path`: the hypotheses of its
conditional conjuncts are satisfiable at concrete inputs. -/
theorem C1_witness :
    normalizeRelativePath [PathComponent.curDir] = .error .emptyPath ∧
    ["root"] <+: resolvePath ["root"] ["b"] := by
  constructor
  · exact C1_normalize_relative_path.2.2.2.2.2.2.2.1 [PathComponent.curDir]
      (by decide) (by rfl)
  · exact C1_normalize_relative_path.2.2.2.2.2.2.2.2.2.2
      [PathComponent.normal "a", PathComponent.parentDir, PathComponent.normal "b"]
      ["b"] ["root"] C1_normalize_relative_path.2.2.2.2.2.2.2.2.1

/-! ## Theorems for C8 -/

/-- C8 counterexample: the byte sequence FF FE 00 D8 starts with the
UTF-16 LE byte-order marker but its payload is a lone high surrogate
(0xD800), so `detect_and_decode` returns an `Io` error instead of decoding
and reporting `Utf16Le` as the claim states for every FF FE-prefixed byte
sequence. -/
theorem C8_counterexample :
    detectAndDecode [0xFF, 0xFE, 0x00, 0xD8] = .error (AppError.io "Invalid UTF-16 LE") ∧
    ∀ t, detectAndDecode [0xFF, 0xFE, 0x00, 0xD8] ≠ .ok (t, Encoding.utf16Le) := by
  refine ⟨by rfl, ?_⟩
  intro t h
  rw [show detectAndDecode [0xFF, 0xFE, 0x00, 0xD8]
      = .error (AppError.io "Invalid UTF-16 LE") from by rfl] at h
  exact Except.noConfusion h

/-- C8 (amended): encoding detection is decided by the leading byte-order
marker — EF BB BF decodes the remaining bytes as UTF-8 (lossily, so it
always succeeds) reporting `Utf8WithBom`; FF FE (resp. FE FF) decodes the
remaining bytes as UTF-16 LE (resp. BE) reporting `Utf16Le` (resp.
`Utf16Be`) when they form valid UTF-16 after dropping a trailing odd byte,
and fails with an `Io` error otherwise; all other byte sequences decode as
UTF-8 reporting `Utf8`. -/
theorem C8_detect_and_decode :
    (∀ rest, detectAndDecode (0xEF :: 0xBB :: 0xBF :: rest) =
      .ok (utf8Lossy rest, Encoding.utf8WithBom)) ∧
    (∀ rest t, utf16Chars (utf16Units true rest) = some t →
      detectAndDecode (0xFF :: 0xFE :: rest) = .ok (t, Encoding.utf16Le)) ∧
    (∀ rest, utf16Chars (utf16Units true rest) = none →
      detectAndDecode (0xFF :: 0xFE :: rest) = .error (AppError.io "Invalid UTF-16 LE")) ∧
    (∀ rest t, utf16Chars (utf16Units false rest) = some t →
      detectAndDecode (0xFE :: 0xFF :: rest) = .ok (t, Encoding.utf16Be)) ∧
    (∀ rest, utf16Chars (utf16Units false rest) = none →
      detectAndDecode (0xFE :: 0xFF :: rest) = .error (AppError.io "Invalid UTF-16 BE")) ∧
    (∀ bs, bs.take 3 ≠ [0xEF, 0xBB, 0xBF] → bs.take 2 ≠ [0xFF, 0xFE] →
      bs.take 2 ≠ [0xFE, 0xFF] → detectAndDecode bs = .ok (utf8Lossy bs, Encoding.utf8)) ∧
    (detectAndDecode (strBytes "Hi".data) = .ok ("Hi".data, Encoding.utf8)) ∧
    (detectAndDecode (0xEF :: 0xBB :: 0xBF :: strBytes "Hi".data) =
      .ok ("Hi".data, Encoding.utf8WithBom)) ∧
    (detectAndDecode [0xFF, 0xFE, 0x41, 0x00] = .ok ("A".data, Encoding.utf16Le)) ∧
    (detectAndDecode [0xFE, 0xFF, 0x00, 0x41] = .ok ("A".data, Encoding.utf16Be)) := by
  refine ⟨?_, ?_, ?_, ?_, ?_, ?_, by rfl, by rfl, by rfl, by rfl⟩
  · intro rest
    simp [detectAndDecode]
  · intro rest t h
    simp [detectAndDecode, h]
  · intro rest h
    simp [detectAndDecode, h]
  · intro rest t h
    simp [detectAndDecode, h]
  · intro rest h
    simp [detectAndDecode, h]
  · intro bs h3 hle hbe
    simp [detectAndDecode, h3, hle, hbe]

/-- Closed witness for `C8_detect_and_decode`. -/
theorem C8_witness :
    utf16Chars (utf16Units true [0x41, 0x00]) = some "A".data ∧
    detectAndDecode (0xFF :: 0xFE :: [0x41, 0x00]) = .ok ("A".data, Encoding.utf16Le) ∧
    detectAndDecode [0x48] = .ok (utf8Lossy [0x48], Encoding.utf8) :=
  ⟨by rfl, C8_detect_and_decode.2.1 [0x41, 0x00] "A".data (by rfl),
    C8_detect_and_decode.2.2.2.2.2.1 [0x48] (by decide) (by decide) (by decide)⟩

end Writer

namespace Writer

/-! ## Theorems for C9 -/

/-- C9. For every query that is empty or consists only of whitespace,
`search` returns `Ok` with an empty result list regardless of the filters
and limit — and regardless of the query engine (`runQuery` is universally
quantified, so the index is never consulted). -/
theorem C9_search_whitespace_query_returns_empty
    (runQuery : List Char → Option SearchFilters → Nat →
      Except AppError (List SearchHit))
    (query : List Char) (filters : Option SearchFilters) (limit : Nat)
    (h : ∀ ch ∈ query, rustIsWhitespace ch = true) :
    search runQuery query filters limit = .ok [] := by
  have h1 : query.dropWhile rustIsWhitespace = [] :=
    List.dropWhile_eq_nil_iff.mpr h
  simp [search, rustTrim, h1]

/-- Closed witness for `C9_search_whitespace_query_returns_empty`: a
whitespace-only query against an engine that would error. -/
theorem C9_witness :
    search (fun _ _ _ => .error (AppError.io "engine must not run"))
      " \t ".data (some ⟨none, none, none, none⟩) 50 = .ok [] :=
  C9_search_whitespace_query_returns_empty _ " \t ".data _ 50 (by decide)

/-! ## Theorems for C10 -/

/-- C10. `locate_query_position` is *not* total: the byte index of the
match is found in the lowercased content, and lowercasing `"İİx"` (two
U+0130 characters, two bytes each, lowercase to U+0069 U+0307, three bytes
each) yields a 7-byte string in which `"x"` sits at byte 6, past the end
of the 5-byte original — `&content[..6]` panics, modelled as `none`.  On
content whose lowercase keeps byte positions the function behaves as
claimed (second conjunct: line 2, column 1). -/
theorem C10_locate_query_position_panics :
    locateQueryPosition "İİx".data "x".data = none ∧
    locateQueryPosition "hello\nworld".data "WORLD".data = some (2, 1) := by
  constructor
  · rfl
  · rfl

end Writer

namespace Writer

/-! ## Catalog upsert lemmas (shared) -/

theorem hasKey_applyDocUpdate (r : DocRow) (m : DocMeta) (now : Int) (l : Int)
    (p : List Char) : (applyDocUpdate r m now).hasKey l p ↔ r.hasKey l p := by
  simp [applyDocUpdate, DocRow.hasKey]

/-- Upserting over a key already present updates that row in place. -/
theorem findDocRow_update_of_found (docs : List DocRow) (l : Int) (p : List Char)
    (m : DocMeta) (now : Int) (r : DocRow)
    (h : findDocRow docs l p = some r) :
    findDocRow (updateDocInCatalog docs l p m now) l p =
      some (applyDocUpdate r m now) := by
  induction docs with
  | nil => simp [findDocRow] at h
  | cons d ds ih =>
    by_cases hd : d.hasKey l p
    · have hfind : findDocRow (d :: ds) l p = some d := by
        rw [findDocRow]
        exact List.find?_cons_of_pos _ (by simpa using hd)
      have hr : d = r := by
        rw [hfind] at h
        exact Option.some.inj h
      have hany : (d :: ds).any (fun x => decide (x.hasKey l p)) = true := by
        simp [hd]
      rw [updateDocInCatalog, if_pos hany, List.map_cons, if_pos hd, findDocRow,
        List.find?_cons_of_pos _ (by simpa [hasKey_applyDocUpdate] using hd), hr]
    · have hds : findDocRow ds l p = some r := by
        rw [findDocRow, List.find?_cons_of_neg _ (by simpa using hd)] at h
        exact h
      have hds' : ds.find? (fun x => decide (x.hasKey l p)) = some r := hds
      have hpr : decide (r.hasKey l p) = true := by
        have h0 := List.find?_some (p := fun x : DocRow => decide (x.hasKey l p)) hds'
        simpa using h0
      have hanyds : ds.any (fun x => decide (x.hasKey l p)) = true := by
        rw [List.any_eq_true]
        exact ⟨r, List.mem_of_find?_eq_some
          (p := fun x : DocRow => decide (x.hasKey l p)) hds', hpr⟩
      have hany : (d :: ds).any (fun x => decide (x.hasKey l p)) = true := by
        simp [hanyds]
      rw [updateDocInCatalog, if_pos hany, List.map_cons, if_neg hd, findDocRow,
        List.find?_cons_of_neg _ (by simpa using hd)]
      have ihds := ih hds
      rw [updateDocInCatalog, if_pos hanyds, findDocRow] at ihds
      exact ihds

/-- Upserting a missing key appends a fresh row. -/
theorem findDocRow_update_of_none (docs : List DocRow) (l : Int) (p : List Char)
    (m : DocMeta) (now : Int)
    (h : findDocRow docs l p = none) :
    findDocRow (updateDocInCatalog docs l p m now) l p =
      some (docRowOfMeta l p m now) := by
  have hall := List.find?_eq_none.mp h
  have hany : docs.any (fun x => decide (x.hasKey l p)) = false := by
    rw [List.any_eq_false]
    intro x hx
    exact hall x hx
  rw [updateDocInCatalog, if_neg (by simp [hany]), findDocRow, List.find?_append]
  rw [findDocRow] at h
  rw [h]
  simp [docRowOfMeta, DocRow.hasKey]

/-! ## Theorems for C3 -/

/-- C3. A `doc_save` over an existing catalog row whose `created_at` is
non-null keeps that `created_at` (via `COALESCE`) while replacing `mtime`,
`size_bytes`, `content_hash`, `title`, `word_count` and `updated_at`; in
particular saving a document twice leaves the second save's row with the
first save's `created_at`. -/
theorem C3_doc_save_preserves_created_at :
    (∀ (c : Collab) (st : DbState) (locId : Int) (rel text : List Char)
      (stat : StatResult) (now : Int) (r : DocRow) (t : Int),
      findDocRow st.documents locId rel = some r → r.createdAt = some t →
      ∃ r', findDocRow (docSave c st locId rel text stat now).documents locId rel
          = some r' ∧
        r'.createdAt = some t ∧ r'.mtime = stat.mtime ∧
        r'.sizeBytes = stat.sizeBytes ∧
        r'.contentHash = some (c.hashText text) ∧
        r'.title = (deriveTextMetadata c text rel).1 ∧
        r'.wordCount = some (deriveTextMetadata c text rel).2 ∧
        r'.updatedAt = now) ∧
    (∀ (c : Collab) (st : DbState) (locId : Int) (rel text1 text2 : List Char)
      (stat1 stat2 : StatResult) (now1 now2 : Int) (t : Int),
      findDocRow st.documents locId rel = none → stat1.createdAt = some t →
      ∃ r', findDocRow (docSave c (docSave c st locId rel text1 stat1 now1)
          locId rel text2 stat2 now2).documents locId rel = some r' ∧
        r'.createdAt = some t ∧ r'.mtime = stat2.mtime) := by
  constructor
  · intro c st locId rel text stat now r t hfind hc
    refine ⟨applyDocUpdate r (docSaveMeta c rel text stat) now, ?_, ?_⟩
    · exact findDocRow_update_of_found st.documents locId rel _ now r hfind
    · simp [applyDocUpdate, docSaveMeta, coalesce, hc]
  · intro c st locId rel text1 text2 stat1 stat2 now1 now2 t hnone hc
    have h1 : findDocRow (docSave c st locId rel text1 stat1 now1).documents
        locId rel = some (docRowOfMeta locId rel (docSaveMeta c rel text1 stat1) now1) :=
      findDocRow_update_of_none st.documents locId rel _ now1 hnone
    refine ⟨applyDocUpdate (docRowOfMeta locId rel (docSaveMeta c rel text1 stat1) now1)
      (docSaveMeta c rel text2 stat2) now2, ?_, ?_, ?_⟩
    · exact findDocRow_update_of_found _ locId rel _ now2 _ h1
    · simp [applyDocUpdate, docRowOfMeta, docSaveMeta, coalesce, hc]
    · simp [applyDocUpdate, docSaveMeta]

/-- Closed witness for `C3_doc_save_preserves_created_at`: saving twice
into an empty catalog keeps the first save's `created_at` of 42. -/
theorem C3_witness :
    ∃ r', findDocRow (docSave ⟨fun _ => .error (), fun t => t⟩
        (docSave ⟨fun _ => .error (), fun t => t⟩ ⟨[], []⟩ 1 "a.md".data
          "hi".data ⟨2, 10, some 42⟩ 100)
        1 "a.md".data "hi again".data ⟨8, 20, some 43⟩ 200).documents
      1 "a.md".data = some r' ∧ r'.createdAt = some 42 ∧ r'.mtime = 20 :=
  C3_doc_save_preserves_created_at.2 ⟨fun _ => .error (), fun t => t⟩ ⟨[], []⟩
    1 "a.md".data "hi".data "hi again".data ⟨2, 10, some 42⟩ ⟨8, 20, some 43⟩
    100 200 42 (by rfl) (by rfl)

end Writer

namespace Writer

/-! ## Theorems for C4 -/

/-- C4. When the normalized destination equals the normalized source or is
a descendant of it (source string followed by `/`), `dir_move` fails with
`InvalidPath` and returns the state unchanged: no filesystem mutation and
no catalog or index change. -/
theorem C4_dir_move_rejects_self_or_descendant
    (st : SysState) (locId : Int) (loc : Location)
    (p q : List PathComponent) (pn qn : List String) (now : Int)
    (hloc : locationGet st.locations locId = some loc)
    (hp : normalizeRelativePath p = .ok pn)
    (hq : normalizeRelativePath q = .ok qn)
    (hdesc : joinSegs qn = joinSegs pn ∨
      (joinSegs pn ++ ['/']).isPrefixOf (joinSegs qn) = true) :
    dirMove st locId p q now =
      (.error (AppError.invalidPath
        "Cannot move a directory into itself or one of its descendants"), st) := by
  simp only [dirMove, hloc, hp, hq]
  rw [if_pos (by simpa using hdesc)]

/-- Closed witness for `C4_dir_move_rejects_self_or_descendant`:
`dir_move(L, "a", "a/b")` fails with `InvalidPath` and mutates nothing. -/
theorem C4_witness :
    dirMove ⟨[⟨1, "L".data, "/r".data, 0⟩], ⟨[⟨"/r/a".data, true⟩]⟩, ⟨[], []⟩⟩ 1
      [PathComponent.normal "a"] [PathComponent.normal "a", PathComponent.normal "b"] 9 =
      (.error (AppError.invalidPath
        "Cannot move a directory into itself or one of its descendants"),
        ⟨[⟨1, "L".data, "/r".data, 0⟩], ⟨[⟨"/r/a".data, true⟩]⟩, ⟨[], []⟩⟩) :=
  C4_dir_move_rejects_self_or_descendant _ 1 ⟨1, "L".data, "/r".data, 0⟩
    [PathComponent.normal "a"] [PathComponent.normal "a", PathComponent.normal "b"]
    ["a"] ["a", "b"] 9 (by rfl) (by rfl) (by rfl) (by decide)

end Writer

namespace Writer

/-! ## Order lemmas for the `doc_list` comparators -/

theorem listCharLt_irrefl (s : List Char) : listCharLt s s = false := by
  induction s with
  | nil => rfl
  | cons a as ih => simp [listCharLt, ih]

theorem listCharLt_asymm : ∀ s t, listCharLt s t = true → listCharLt t s = true → False := by
  intro s
  induction s with
  | nil =>
    intro t hst hts
    cases t with
    | nil => simp [listCharLt] at hst
    | cons b bs => simp [listCharLt] at hts
  | cons a as ih =>
    intro t hst hts
    cases t with
    | nil => simp [listCharLt] at hst
    | cons b bs =>
      by_cases hab : a.toNat < b.toNat
      · have : ¬ b.toNat < a.toNat := by omega
        simp [listCharLt, hab, this] at hts
      · by_cases hba : b.toNat < a.toNat
        · simp [listCharLt, hab, hba] at hst
        · simp [listCharLt, hab, hba] at hst hts
          exact ih bs hst hts

theorem listCharLt_cotrans :
    ∀ a b c, listCharLt a c = true →
      listCharLt a b = true ∨ listCharLt b c = true := by
  intro a
  induction a with
  | nil =>
    intro b c hac
    cases c with
    | nil => simp [listCharLt] at hac
    | cons z zs =>
      cases b with
      | nil => exact Or.inr hac
      | cons y ys => exact Or.inl (by simp [listCharLt])
  | cons x xs ih =>
    intro b c hac
    cases c with
    | nil => simp [listCharLt] at hac
    | cons z zs =>
      cases b with
      | nil => exact Or.inr (by simp [listCharLt])
      | cons y ys =>
        by_cases hxy : x.toNat < y.toNat
        · exact Or.inl (by simp [listCharLt, hxy])
        · by_cases hxz : x.toNat < z.toNat
          · have hyz : y.toNat < z.toNat := by omega
            exact Or.inr (by simp [listCharLt, hyz])
          · by_cases hzx : z.toNat < x.toNat
            · simp [listCharLt, hxz, hzx] at hac
            · simp only [listCharLt, hxz, hzx, if_neg, if_false] at hac
              by_cases hyx : y.toNat < x.toNat
              · have hyz : y.toNat < z.toNat := by omega
                exact Or.inr (by simp [listCharLt, hyz])
              · have h1 : ¬ y.toNat < z.toNat := by omega
                have h2 : ¬ z.toNat < y.toNat := by omega
                rcases ih ys zs (by simpa [listCharLt, hxz, hzx] using hac) with h | h
                · exact Or.inl (by simp [listCharLt, hxy, hyx, h])
                · exact Or.inr (by simp [listCharLt, h1, h2, h])

theorem nameLe_trans (a b c : DocMeta) (h1 : nameLe a b) (h2 : nameLe b c) :
    nameLe a c = true := by
  simp only [nameLe, Bool.not_eq_true'] at h1 h2 ⊢
  by_contra hlt
  rw [Bool.not_eq_false] at hlt
  rcases listCharLt_cotrans c.filename b.filename a.filename hlt with h | h
  · rw [h] at h2; exact Bool.noConfusion h2
  · rw [h] at h1; exact Bool.noConfusion h1

theorem nameLe_total (a b : DocMeta) : nameLe a b || nameLe b a := by
  simp only [nameLe, Bool.or_eq_true, Bool.not_eq_true']
  by_contra h
  push_neg at h
  rcases h with ⟨h1, h2⟩
  exact listCharLt_asymm _ _ (Bool.of_not_eq_false h2) (Bool.of_not_eq_false h1)

theorem modifiedLe_trans (a b c : DocMeta) (h1 : modifiedLe a b) (h2 : modifiedLe b c) :
    modifiedLe a c = true := by
  simp only [modifiedLe, decide_eq_true_eq] at h1 h2 ⊢
  omega

theorem modifiedLe_total (a b : DocMeta) : modifiedLe a b || modifiedLe b a := by
  simp only [modifiedLe, Bool.or_eq_true, decide_eq_true_eq]
  omega

theorem createdLe_trans (a b c : DocMeta) (h1 : createdLe a b) (h2 : createdLe b c) :
    createdLe a c = true := by
  unfold createdLe at h1 h2 ⊢
  cases ha : a.createdAt <;> cases hb : b.createdAt <;> cases hc : c.createdAt <;>
    simp_all
  all_goals omega

theorem createdLe_total (a b : DocMeta) : createdLe a b || createdLe b a := by
  unfold createdLe
  cases a.createdAt <;> cases b.createdAt <;> simp
  all_goals omega

theorem sizeLe_trans (a b c : DocMeta) (h1 : sizeLe a b) (h2 : sizeLe b c) :
    sizeLe a c = true := by
  simp only [sizeLe, decide_eq_true_eq] at h1 h2 ⊢
  omega

theorem sizeLe_total (a b : DocMeta) : sizeLe a b || sizeLe b a := by
  simp only [sizeLe, Bool.or_eq_true, decide_eq_true_eq]
  omega

theorem sortFieldLe_trans (f : DocSortField) (a b c : DocMeta)
    (h1 : sortFieldLe f a b) (h2 : sortFieldLe f b c) : sortFieldLe f a c = true := by
  cases f
  · exact nameLe_trans a b c h1 h2
  · exact modifiedLe_trans a b c h1 h2
  · exact createdLe_trans a b c h1 h2
  · exact sizeLe_trans a b c h1 h2

theorem sortFieldLe_total (f : DocSortField) (a b : DocMeta) :
    sortFieldLe f a b || sortFieldLe f b a := by
  cases f
  · exact nameLe_total a b
  · exact modifiedLe_total a b
  · exact createdLe_total a b
  · exact sizeLe_total a b

end Writer

namespace Writer

/-! ## Theorems for C7 -/

/-- C7 (amended). `doc_list` stably sorts with the field comparator and
reverses for `Ascending`; the `Modified`, `Created` and `Size` comparators
are default-descending, but the `Name` comparator is
`a.filename.cmp(&b.filename)`, which is **ascending**, so with the default
`Descending` order the documents appear in ascending filename order (and
`Ascending` yields descending filenames).  `sort_by = None` defaults to
`Modified`. -/
theorem C7_doc_list_sort :
    (∀ (f : DocSortField) (docs : List DocMeta),
      List.Perm (docListSort (some f) .descending docs) docs) ∧
    (∀ (f : DocSortField) (docs : List DocMeta),
      (docListSort (some f) .descending docs).Pairwise
        (fun a b => sortFieldLe f a b = true)) ∧
    (∀ (f : DocSortField) (docs : List DocMeta),
      docListSort (some f) .ascending docs =
        (docListSort (some f) .descending docs).reverse) ∧
    (∀ (ord : SortOrder) (docs : List DocMeta),
      docListSort none ord docs = docListSort (some .modified) ord docs) ∧
    (∀ docs : List DocMeta,
      (docListSort (some .name) .descending docs).Pairwise
        (fun a b => listCharLt b.filename a.filename = false)) := by
  have hpair : ∀ (f : DocSortField) (docs : List DocMeta),
      (docListSort (some f) .descending docs).Pairwise
        (fun a b => sortFieldLe f a b = true) := by
    intro f docs
    have := List.sorted_mergeSort (sortFieldLe_trans f) (sortFieldLe_total f) docs
    simpa [docListSort] using this
  refine ⟨?_, hpair, ?_, ?_, ?_⟩
  · intro f docs
    simpa [docListSort] using List.mergeSort_perm docs (sortFieldLe f)
  · intro f docs
    rfl
  · intro ord docs
    rfl
  · intro docs
    have := hpair .name docs
    refine this.imp ?_
    intro a b h
    simpa [sortFieldLe, nameLe] using h

/-- C7 counterexample: two documents named `a.md` and `b.md` listed with
`sort_by = Name` and the default `Descending` order come back in
**ascending** filename order `[a.md, b.md]`, not the descending order
`[b.md, a.md]` the claim states. -/
theorem C7_counterexample :
    docListSort (some .name) .descending
      [⟨"a.md".data, 0, 0, none, none, .utf8, 0, false, none, none⟩,
        ⟨"b.md".data, 0, 0, none, none, .utf8, 0, false, none, none⟩] =
      [⟨"a.md".data, 0, 0, none, none, .utf8, 0, false, none, none⟩,
        ⟨"b.md".data, 0, 0, none, none, .utf8, 0, false, none, none⟩] ∧
    ([(⟨"a.md".data, 0, 0, none, none, .utf8, 0, false, none, none⟩ : DocMeta),
        ⟨"b.md".data, 0, 0, none, none, .utf8, 0, false, none, none⟩] ≠
      [⟨"b.md".data, 0, 0, none, none, .utf8, 0, false, none, none⟩,
        ⟨"a.md".data, 0, 0, none, none, .utf8, 0, false, none, none⟩]) := by
  constructor
  · show List.mergeSort _ _ = _
    exact List.mergeSort_of_sorted (by decide)
  · decide

end Writer

namespace Writer

/-! ## ASCII transport lemmas (shared by C6) -/

theorem toNat_ofNat_valid (n : Nat) (h : n.isValidChar) : (Char.ofNat n).toNat = n := by
  simp only [Char.ofNat, h, dif_pos, Char.toNat, Char.ofNatAux]
  rfl

theorem rustCharLower_ascii (c : Char) (h : c.toNat < 128) :
    rustCharLower c = [asciiLowerChar c] := by
  unfold rustCharLower asciiLowerChar
  by_cases hu : 'A' ≤ c ∧ c ≤ 'Z'
  · simp [hu]
  · have hne : ¬ c.toNat = 0x130 := by omega
    simp [hu, hne]

theorem rustToLower_ascii (s : List Char) (h : ∀ ch ∈ s, ch.toNat < 128) :
    rustToLower s = s.map asciiLowerChar := by
  induction s with
  | nil => rfl
  | cons x xs ih =>
    have hx := h x (List.mem_cons_self _ _)
    have hxs : ∀ ch ∈ xs, ch.toNat < 128 := fun ch hch => h ch (List.mem_cons_of_mem _ hch)
    simp only [rustToLower, List.flatMap_cons, List.map_cons]
    rw [rustCharLower_ascii x hx]
    simp only [List.singleton_append, List.cons.injEq, true_and]
    exact ih hxs

theorem toNat_asciiLowerChar_lt (c : Char) (h : c.toNat < 128) :
    (asciiLowerChar c).toNat < 128 := by
  unfold asciiLowerChar
  by_cases hu : 'A' ≤ c ∧ c ≤ 'Z'
  · rw [if_pos hu]
    have hz : c.toNat ≤ 90 := by
      have hle : c.val ≤ ('Z' : Char).val := hu.2
      rw [UInt32.le_def, BitVec.le_def] at hle
      simpa [Char.toNat, UInt32.toNat] using hle
    rw [toNat_ofNat_valid _ (Or.inl (by omega))]
    omega
  · rwa [if_neg hu]

theorem utf8Bytes_ascii (c : Char) (h : c.toNat < 128) :
    utf8Bytes c = [c.toNat] := by
  unfold utf8Bytes
  simp [h]

theorem strBytes_ascii (s : List Char) (h : ∀ ch ∈ s, ch.toNat < 128) :
    strBytes s = s.map Char.toNat := by
  induction s with
  | nil => rfl
  | cons x xs ih =>
    simp only [strBytes, List.flatMap_cons, List.map_cons]
    rw [utf8Bytes_ascii x (h x (List.mem_cons_self _ _))]
    simp only [List.singleton_append, List.cons.injEq, true_and]
    exact ih fun ch hch => h ch (List.mem_cons_of_mem _ hch)

theorem map_prefix_iff_of_injective {α β : Type} {f : α → β}
    (hf : Function.Injective f) :
    ∀ (a b : List α), (a.map f <+: b.map f) ↔ a <+: b := by
  intro a
  induction a with
  | nil => intro b; simp
  | cons x xs ih =>
    intro b
    cases b with
    | nil =>
      simp only [List.map_cons, List.map_nil]
      constructor
      · intro h
        exact absurd (List.prefix_nil.mp h) (by simp)
      · intro h
        exact absurd (List.prefix_nil.mp h) (by simp)
    | cons y ys =>
      simp only [List.map_cons, List.cons_prefix_cons]
      constructor
      · rintro ⟨h1, h2⟩
        exact ⟨hf h1, (ih ys).mp h2⟩
      · rintro ⟨h1, h2⟩
        exact ⟨congrArg f h1, (ih ys).mpr h2⟩

theorem subIndex_map {α β : Type} [DecidableEq α] [DecidableEq β] {f : α → β}
    (hf : Function.Injective f) (n : List α) :
    ∀ h : List α, subIndex (n.map f) (h.map f) = subIndex n h := by
  intro h
  induction h with
  | nil =>
    simp only [List.map_nil, subIndex]
    by_cases hn : n.isPrefixOf [] = true
    · rw [if_pos hn, if_pos]
      rw [List.isPrefixOf_iff_prefix] at hn ⊢
      simpa using (map_prefix_iff_of_injective hf n []).mpr hn
    · rw [if_neg hn, if_neg]
      intro hcon
      rw [List.isPrefixOf_iff_prefix] at hcon hn
      exact hn (by simpa using (map_prefix_iff_of_injective hf n []).mp (by simpa using hcon))
  | cons y ys ih =>
    simp only [List.map_cons, subIndex]
    by_cases hp : n.isPrefixOf (y :: ys) = true
    · rw [if_pos hp, if_pos]
      rw [List.isPrefixOf_iff_prefix] at hp ⊢
      have := (map_prefix_iff_of_injective hf n (y :: ys)).mpr hp
      simpa using this
    · rw [if_neg hp, if_neg, ih]
      intro hcon
      rw [List.isPrefixOf_iff_prefix] at hcon hp
      exact hp ((map_prefix_iff_of_injective hf n (y :: ys)).mp (by simpa using hcon))

theorem subIndex_le {α : Type} [DecidableEq α] (n : List α) :
    ∀ (h : List α) (i : Nat), subIndex n h = some i → i ≤ h.length := by
  intro h
  induction h with
  | nil =>
    intro i hi
    unfold subIndex at hi
    by_cases hp : n.isPrefixOf [] = true
    · rw [if_pos hp] at hi
      simpa using (Option.some.inj hi).symm.le
    · rw [if_neg hp] at hi
      exact absurd hi (by simp)
  | cons y ys ih =>
    intro i hi
    unfold subIndex at hi
    by_cases hp : n.isPrefixOf (y :: ys) = true
    · rw [if_pos hp] at hi
      simp [← Option.some.inj hi]
    · rw [if_neg hp] at hi
      rcases Option.map_eq_some'.mp hi with ⟨j, hj, rfl⟩
      have := ih j hj
      simp only [List.length_cons]
      omega

theorem charPrefixAtByte_ascii (content : List Char)
    (hc : ∀ ch ∈ content, ch.toNat < 128) :
    ∀ j : Nat, j ≤ content.length →
      charPrefixAtByte content j = some (content.take j) := by
  induction content with
  | nil =>
    intro j hj
    have hj0 : j = 0 := by simpa using hj
    subst hj0
    rfl
  | cons x xs ih =>
    intro j hj
    cases j with
    | zero => rfl
    | succ j' =>
      have hx : utf8Len x = 1 := by
        simp [utf8Len, utf8Bytes_ascii x (hc x (List.mem_cons_self _ _))]
      simp only [charPrefixAtByte, hx]
      rw [if_pos (by omega)]
      have hxs : ∀ ch ∈ xs, ch.toNat < 128 := fun ch hch => hc ch (List.mem_cons_of_mem _ hch)
      have := ih hxs j' (by simpa using Nat.succ_le_succ_iff.mp (by simpa using hj))
      simp [this, List.take_succ_cons]

end Writer

namespace Writer

/-! ## Highlight-walk and token lemmas (shared by C6) -/

theorem strBytes_cons_length (x : Char) (a : List Char) :
    (strBytes (x :: a)).length = utf8Len x + (strBytes a).length := by
  simp [strBytes, utf8Len]

/-- Copying a marker-free run leaves it in the plain text and advances the
byte counter by its encoded length. -/
theorem extractHighlightAux_copy (a : List Char)
    (ha : ∀ ch ∈ a, ch ≠ '<' ∧ ch ≠ '>') :
    ∀ (rest : List Char) (plainLen : Nat) (startIdx : Option Nat)
      (ms : List SearchMatch),
      extractHighlightAux (a ++ rest) plainLen startIdx ms =
        ((a ++ (extractHighlightAux rest (plainLen + (strBytes a).length)
            startIdx ms).1),
          (extractHighlightAux rest (plainLen + (strBytes a).length)
            startIdx ms).2) := by
  induction a with
  | nil =>
    intro rest plainLen startIdx ms
    simp [strBytes]
  | cons x a' ih =>
    intro rest plainLen startIdx ms
    have hx := ha x (List.mem_cons_self _ _)
    have ha' : ∀ ch ∈ a', ch ≠ '<' ∧ ch ≠ '>' :=
      fun ch hch => ha ch (List.mem_cons_of_mem _ hch)
    have harith : plainLen + utf8Len x + (strBytes a').length =
        plainLen + (strBytes (x :: a')).length := by
      rw [strBytes_cons_length]; omega
    cases hcr : a' ++ rest with
    | nil =>
      rcases List.append_eq_nil.mp hcr with ⟨h1, h2⟩
      subst h1; subst h2
      simp [extractHighlightAux, strBytes]
    | cons y t =>
      have hshape : x :: a' ++ rest = x :: y :: t := by rw [List.cons_append, hcr]
      rw [hshape]
      have hcond1 : ¬ (x = '<' ∧ y = '<') := fun hcon => hx.1 hcon.1
      have hcond2 : ¬ (x = '>' ∧ y = '>') := fun hcon => hx.2 hcon.1
      simp only [extractHighlightAux, if_neg hcond1, if_neg hcond2]
      rw [← hcr, ih ha' rest (plainLen + utf8Len x) startIdx ms, harith]
      simp

/-- C6 core: for a marker-free partition `a ++ "<<" ++ b ++ ">>" ++ c`, the
extracted snippet is `a ++ b ++ c` and the single span covers `b` measured
in UTF-8 **bytes** of the preceding and highlighted text. -/
theorem extract_marked (a b c : List Char)
    (ha : ∀ ch ∈ a, ch ≠ '<' ∧ ch ≠ '>')
    (hb : ∀ ch ∈ b, ch ≠ '<' ∧ ch ≠ '>')
    (hc : ∀ ch ∈ c, ch ≠ '<' ∧ ch ≠ '>') :
    extractHighlightMatches (a ++ '<' :: '<' :: (b ++ '>' :: '>' :: c)) =
      (a ++ b ++ c,
        [⟨(strBytes a).length, (strBytes a).length + (strBytes b).length⟩]) := by
  unfold extractHighlightMatches
  rw [extractHighlightAux_copy a ha]
  have h2 : extractHighlightAux ('<' :: '<' :: (b ++ '>' :: '>' :: c))
      (0 + (strBytes a).length) none [] =
      extractHighlightAux (b ++ '>' :: '>' :: c) (0 + (strBytes a).length)
        (some (0 + (strBytes a).length)) [] := by
    cases b <;> simp [extractHighlightAux]
  rw [h2, extractHighlightAux_copy b hb]
  have h3 : extractHighlightAux ('>' :: '>' :: c)
      (0 + (strBytes a).length + (strBytes b).length)
      (some (0 + (strBytes a).length)) [] =
      extractHighlightAux c (0 + (strBytes a).length + (strBytes b).length) none
        [⟨0 + (strBytes a).length,
          0 + (strBytes a).length + (strBytes b).length⟩] := by
    cases c <;> simp [extractHighlightAux]
  rw [h3]
  have h4 := extractHighlightAux_copy c hc []
    (0 + (strBytes a).length + (strBytes b).length) none
    [⟨0 + (strBytes a).length, 0 + (strBytes a).length + (strBytes b).length⟩]
  rw [show c = c ++ [] from (List.append_nil c).symm] at h4
  simp only [List.append_nil] at h4
  rw [h4]
  simp [extractHighlightAux]

/-- Characters of whitespace-split tokens come from the input. -/
theorem splitWsAux_mem_subset :
    ∀ (s cur tok : List Char), tok ∈ splitWsAux s cur →
      ∀ ch ∈ tok, ch ∈ s ∨ ch ∈ cur := by
  intro s
  induction s with
  | nil =>
    intro cur tok htok ch hch
    unfold splitWsAux at htok
    by_cases hcur : cur = []
    · simp [hcur] at htok
    · rw [if_neg hcur] at htok
      have : tok = cur.reverse := by simpa using htok
      subst this
      exact Or.inr (List.mem_reverse.mp hch)
  | cons x rest ih =>
    intro cur tok htok ch hch
    unfold splitWsAux at htok
    by_cases hws : rustIsWhitespace x
    · rw [if_pos hws] at htok
      by_cases hcur : cur = []
      · rw [if_pos hcur] at htok
        rcases ih [] tok htok ch hch with h | h
        · exact Or.inl (List.mem_cons_of_mem _ h)
        · simp at h
      · rw [if_neg hcur] at htok
        rcases List.mem_cons.mp htok with h | h
        · subst h
          exact Or.inr (List.mem_reverse.mp hch)
        · rcases ih [] tok h ch hch with h2 | h2
          · exact Or.inl (List.mem_cons_of_mem _ h2)
          · simp at h2
    · rw [if_neg hws] at htok
      rcases ih (x :: cur) tok htok ch hch with h | h
      · exact Or.inl (List.mem_cons_of_mem _ h)
      · rcases List.mem_cons.mp h with h2 | h2
        · subst h2
          exact Or.inl (List.mem_cons_self _ _)
        · exact Or.inr h2

theorem firstSignificantToken_subset (query : List Char) :
    ∀ ch ∈ firstSignificantToken query, ch ∈ query := by
  intro ch hch
  unfold firstSignificantToken at hch
  cases hfind : (splitWhitespace query).find? (fun tok =>
      decide (¬ (tok.map asciiUpperChar = "AND".data ∨
        tok.map asciiUpperChar = "OR".data ∨
        tok.map asciiUpperChar = "NOT".data))) with
  | none => rw [hfind] at hch; simpa using hch
  | some tok =>
    rw [hfind] at hch
    simp only [Option.getD_some] at hch
    have hmem : tok ∈ splitWhitespace query := List.mem_of_find?_eq_some hfind
    rcases splitWsAux_mem_subset query [] tok hmem ch hch with h | h
    · exact h
    · simp at h

theorem stripQuotes_subset (t : List Char) : ∀ ch ∈ stripQuotes t, ch ∈ t := by
  intro ch hch
  unfold stripQuotes at hch
  rw [List.mem_reverse] at hch
  have h1 := (List.dropWhile_sublist _).mem hch
  rw [List.mem_reverse] at h1
  exact (List.dropWhile_sublist _).mem h1

/-- The two ways of computing the column agree: `rsplit_once` after the
last newline versus counting trailing non-newline characters. -/
theorem rsplitTail_column (pre : List Char) :
    (match rsplitTail '\n' pre with
     | some tl => tl.length + 1
     | none => pre.length + 1) =
    (pre.reverse.takeWhile (fun ch => decide (ch ≠ '\n'))).length + 1 := by
  unfold rsplitTail
  by_cases hin : pre.contains '\n'
  · have hmem : '\n' ∈ pre := by simpa using hin
    simp only [hin, if_pos hmem]
    simp
  · rw [if_neg hin]
    have hall : ∀ ch ∈ pre.reverse, (fun ch => decide (ch ≠ '\n')) ch = true := by
      intro ch hch
      rw [List.mem_reverse] at hch
      simp only [decide_eq_true_eq]
      intro heq
      subst heq
      exact hin (List.elem_eq_true_of_mem hch)
    rw [List.takeWhile_eq_self_iff.mpr hall]
    simp

end Writer

namespace Writer

/-! ## Theorems for C6 -/

theorem charToNat_injective : Function.Injective Char.toNat := by
  intro a b h
  rw [← Char.ofNat_toNat a, ← Char.ofNat_toNat b, h]

/-- On ASCII content and queries the byte-index model of
`locate_query_position` coincides with the claim's character-level
description. -/
theorem locate_ascii_refines (content query : List Char)
    (hc : ∀ ch ∈ content, ch.toNat < 128)
    (hq : ∀ ch ∈ query, ch.toNat < 128) :
    locateQueryPosition content query = some (locateSpecAscii content query) := by
  have htok : ∀ ch ∈ stripQuotes (firstSignificantToken query), ch.toNat < 128 :=
    fun ch hch =>
      hq ch (firstSignificantToken_subset query ch (stripQuotes_subset _ ch hch))
  have hterm : rustToLower (stripQuotes (firstSignificantToken query)) =
      (stripQuotes (firstSignificantToken query)).map asciiLowerChar :=
    rustToLower_ascii _ htok
  have hcl : rustToLower content = content.map asciiLowerChar :=
    rustToLower_ascii _ hc
  have hta : ∀ ch ∈ (stripQuotes (firstSignificantToken query)).map asciiLowerChar,
      ch.toNat < 128 := by
    intro ch hch
    rcases List.mem_map.mp hch with ⟨d, hd, rfl⟩
    exact toNat_asciiLowerChar_lt d (htok d hd)
  have hca : ∀ ch ∈ content.map asciiLowerChar, ch.toNat < 128 := by
    intro ch hch
    rcases List.mem_map.mp hch with ⟨d, hd, rfl⟩
    exact toNat_asciiLowerChar_lt d (hc d hd)
  simp only [locateQueryPosition, locateSpecAscii, hterm, hcl,
    strBytes_ascii _ hta, strBytes_ascii _ hca, subIndex_map charToNat_injective]
  by_cases hz : (stripQuotes (firstSignificantToken query)).map asciiLowerChar = []
  · rw [if_pos hz, if_pos hz]
  · rw [if_neg hz, if_neg hz]
    cases hfind : subIndex
        ((stripQuotes (firstSignificantToken query)).map asciiLowerChar)
        (content.map asciiLowerChar) with
    | none => rfl
    | some j =>
      have hj : j ≤ content.length := by
        have := subIndex_le _ _ j hfind
        simpa using this
      simp only []
      rw [charPrefixAtByte_ascii content hc j hj]
      simp only []
      refine congrArg some ?_
      refine Prod.ext rfl ?_
      exact rsplitTail_column (content.take j)

/-- C6 (amended). Every search hit's snippet and spans come from
`extract_highlight_matches` and its position from
`locate_query_position`; the spans' start and end are **UTF-8 byte**
offsets into the snippet text (characters only when the snippet is
ASCII); on ASCII text the best-effort `(line, column)` is exactly the
claim's character-level description — the first case-insensitive
occurrence of the query's first significant token, newlines before it
plus one, characters since the last newline plus one — and any returned
position has `line ≥ 1` and `column ≥ 1`. -/
theorem C6_search_hit_highlights :
    (∀ a b c : List Char,
      (∀ ch ∈ a, ch ≠ '<' ∧ ch ≠ '>') →
      (∀ ch ∈ b, ch ≠ '<' ∧ ch ≠ '>') →
      (∀ ch ∈ c, ch ≠ '<' ∧ ch ≠ '>') →
      extractHighlightMatches (a ++ '<' :: '<' :: (b ++ '>' :: '>' :: c)) =
        (a ++ b ++ c,
          [⟨(strBytes a).length, (strBytes a).length + (strBytes b).length⟩])) ∧
    (∀ content query : List Char,
      (∀ ch ∈ content, ch.toNat < 128) → (∀ ch ∈ query, ch.toNat < 128) →
      locateQueryPosition content query = some (locateSpecAscii content query)) ∧
    (∀ (locId : Int) (rel title snip content query : List Char) (h : SearchHit),
      searchHitOfRow locId rel title snip content query = some h →
      h.snippet = (extractHighlightMatches snip).1 ∧
      h.spans = (extractHighlightMatches snip).2 ∧
      locateQueryPosition content query = some (h.line, h.column)) ∧
    (∀ (content query : List Char) (l col : Nat),
      locateQueryPosition content query = some (l, col) → 1 ≤ l ∧ 1 ≤ col) := by
  refine ⟨extract_marked, locate_ascii_refines, ?_, ?_⟩
  · intro locId rel title snip content query h hrow
    unfold searchHitOfRow at hrow
    cases hloc : locateQueryPosition content query with
    | none => rw [hloc] at hrow; exact absurd hrow (by simp)
    | some lc =>
      rw [hloc] at hrow
      simp only [Option.map_some'] at hrow
      have hh := Option.some.inj hrow
      subst hh
      exact ⟨rfl, rfl, by simp⟩
  · intro content query l col hloc
    simp only [locateQueryPosition] at hloc
    by_cases hz : rustToLower (stripQuotes (firstSignificantToken query)) = []
    · rw [if_pos hz] at hloc
      simp only [Option.some.injEq, Prod.mk.injEq] at hloc
      omega
    · rw [if_neg hz] at hloc
      cases hfind : subIndex (strBytes (rustToLower (stripQuotes
          (firstSignificantToken query)))) (strBytes (rustToLower content)) with
      | none =>
        rw [hfind] at hloc
        simp only [Option.some.injEq, Prod.mk.injEq] at hloc
        omega
      | some j =>
        rw [hfind] at hloc
        simp only [] at hloc
        cases hpre : charPrefixAtByte content j with
        | none => rw [hpre] at hloc; exact absurd hloc (by simp)
        | some pre =>
          rw [hpre] at hloc
          simp only [] at hloc
          simp only [Option.some.injEq, Prod.mk.injEq] at hloc
          rcases hloc with ⟨h1, h2⟩
          refine ⟨by omega, ?_⟩
          rw [← h2]
          cases rsplitTail '\n' pre with
          | none => exact Nat.le_add_left 1 pre.length
          | some tl => exact Nat.le_add_left 1 tl.length

/-- C6 counterexample: on the marked snippet `é<<a>>` the extracted
snippet is the two-character string `éa` but the recorded span is
`[2, 3)` — `é` occupies two bytes — whereas the character offsets of the
highlighted substring `a` are `[1, 2)`; the span end 3 even exceeds the
snippet's character count, so the spans are byte offsets, not character
offsets. -/
theorem C6_counterexample :
    (extractHighlightMatches "é<<a>>".data).1 = "éa".data ∧
    (extractHighlightMatches "é<<a>>".data).2 = [⟨2, 3⟩] ∧
    "éa".data.length = 2 ∧
    (extractHighlightMatches "é<<a>>".data).2 ≠ [⟨1, 2⟩] := by
  refine ⟨rfl, rfl, rfl, by decide⟩

/-- Closed witness for `C6_search_hit_highlights`. -/
theorem C6_witness :
    extractHighlightMatches ("ab".data ++ '<' :: '<' :: ("cd".data ++ '>' :: '>' :: "e".data)) =
      ("abcde".data, [⟨2, 4⟩]) ∧
    locateQueryPosition "hello\nworld".data "WORLD".data =
      some (locateSpecAscii "hello\nworld".data "WORLD".data) := by
  constructor
  · have := C6_search_hit_highlights.1 "ab".data "cd".data "e".data
      (by decide) (by decide) (by decide)
    simpa using this
  · exact C6_search_hit_highlights.2.1 "hello\nworld".data "WORLD".data
      (by decide) (by decide)

end Writer

namespace Writer

/-! ## Theorems for C5 -/

theorem likeMatch_nil_pat (s : List Char) : likeMatch [] s = s.isEmpty := by
  rw [likeMatch.eq_def]

theorem likeMatch_cons (p : Char) (ps s : List Char) :
    likeMatch (p :: ps) s =
      (if p = '%' then
        likeMatch ps s ||
          (match s with
           | [] => false
           | _ :: t => likeMatch (p :: ps) t)
      else if p = '_' then
        match s with
        | [] => false
        | _ :: t => likeMatch ps t
      else if p = '\\' then
        match ps with
        | [] => false
        | q :: ps2 =>
          match s with
          | [] => false
          | c :: t => asciiLowerChar c = asciiLowerChar q && likeMatch ps2 t
      else
        match s with
        | [] => false
        | c :: t => asciiLowerChar c = asciiLowerChar p && likeMatch ps t) := by
  rw [likeMatch.eq_def]

theorem likeMatch_percent_any (s : List Char) : likeMatch ['%'] s = true := by
  induction s with
  | nil => simp [likeMatch_cons, likeMatch_nil_pat]
  | cons c t ih => simp [likeMatch_cons, likeMatch_nil_pat, ih]

/-- Escaping correctness of the directory `LIKE` pattern:
`escape(old) ++ "/%"` matches exactly the strings whose ASCII-lowercased
form extends `lower(old) ++ "/"` — the escaped `%`, `_` and `\` match only
themselves, and matching is ASCII-case-insensitive. -/
theorem likeMatch_dir_pattern (old : List Char) :
    ∀ s, likeMatch (escapeLike old ++ '/' :: '%' :: []) s = true ↔
      (old.map asciiLowerChar ++ ['/']) <+: (s.map asciiLowerChar) := by
  induction old with
  | nil =>
    intro s
    cases s with
    | nil =>
      simp only [escapeLike, List.flatMap_nil, List.nil_append]
      rw [likeMatch_cons]
      simp [List.prefix_nil]
    | cons c t =>
      simp only [escapeLike, List.flatMap_nil, List.nil_append]
      rw [likeMatch_cons]
      have h1 : ¬ ('/' : Char) = '%' := by decide
      have h2 : ¬ ('/' : Char) = '_' := by decide
      have h3 : ¬ ('/' : Char) = '\\' := by decide
      rw [if_neg h1, if_neg h2, if_neg h3]
      simp only [List.map_nil, List.nil_append, List.map_cons, List.cons_prefix_cons,
        likeMatch_percent_any, Bool.and_true, decide_eq_true_eq, List.nil_prefix,
        and_true]
      have h4 : asciiLowerChar '/' = '/' := by decide
      rw [h4]
      exact eq_comm
  | cons o os ih =>
    intro s
    have hesc : escapeLike (o :: os) ++ '/' :: '%' :: [] =
        (if o = '\\' ∨ o = '%' ∨ o = '_' then ['\\', o] else [o]) ++
          (escapeLike os ++ '/' :: '%' :: []) := by
      simp [escapeLike]
    rw [hesc]
    by_cases hcond : o = '\\' ∨ o = '%' ∨ o = '_'
    · rw [if_pos hcond]
      cases s with
      | nil =>
        rw [List.cons_append, likeMatch_cons]
        have h1 : ¬ ('\\' : Char) = '%' := by decide
        have h2 : ¬ ('\\' : Char) = '_' := by decide
        rw [if_neg h1, if_neg h2, if_pos rfl]
        simp [List.prefix_nil]
      | cons c t =>
        rw [List.cons_append, likeMatch_cons]
        have h1 : ¬ ('\\' : Char) = '%' := by decide
        have h2 : ¬ ('\\' : Char) = '_' := by decide
        rw [if_neg h1, if_neg h2, if_pos rfl]
        simp only [List.cons_append, List.nil_append, List.map_cons,
          List.cons_prefix_cons, Bool.and_eq_true, decide_eq_true_eq]
        rw [ih t]
        constructor
        · rintro ⟨hce, hq⟩
          exact ⟨hce.symm, hq⟩
        · rintro ⟨hce, hq⟩
          exact ⟨hce.symm, hq⟩
    · rw [if_neg hcond]
      push_neg at hcond
      rcases hcond with ⟨hc1, hc2, hc3⟩
      cases s with
      | nil =>
        rw [List.cons_append, likeMatch_cons]
        rw [if_neg hc2, if_neg hc3, if_neg hc1]
        simp [List.prefix_nil]
      | cons c t =>
        rw [List.cons_append, likeMatch_cons]
        rw [if_neg hc2, if_neg hc3, if_neg hc1]
        simp only [List.cons_append, List.nil_append, List.map_cons,
          List.cons_prefix_cons, Bool.and_eq_true, decide_eq_true_eq]
        rw [ih t]
        constructor
        · rintro ⟨hce, hq⟩
          exact ⟨hce.symm, hq⟩
        · rintro ⟨hce, hq⟩
          exact ⟨hce.symm, hq⟩

end Writer

namespace Writer

/-- C5 (amended). After the row rewrite of `dir_rename`/`dir_move`
(`update_directory_paths_in_index`), every catalog and index row of the
location whose `rel_path` equals `old` or begins with `old ++ "/"` is
rewritten to start with `new` (with `updated_at` refreshed on catalog
rows), and `%`, `_`, `\` are escaped in the `LIKE` pattern so they match
only themselves; however, because SQLite's default `LIKE` is
ASCII-case-insensitive, the prefix matching is case-insensitive: only rows
of other locations, and rows whose `rel_path` is neither exactly `old` nor
an ASCII-case-insensitive extension of `old ++ "/"`, are unchanged. -/
theorem C5_directory_path_rewrite :
    (∀ old s, likeMatch (escapeLike old ++ '/' :: '%' :: []) s = true ↔
      (old.map asciiLowerChar ++ ['/']) <+: (s.map asciiLowerChar)) ∧
    (∀ (db : DbState) (loc : Int) (old new : List Char) (now : Int) (r : DocRow),
      r ∈ db.documents → r.locationId = loc → r.relPath = old →
      ({ r with relPath := new, updatedAt := now } : DocRow) ∈
        (updateDirectoryPathsInIndex db loc old new now).documents) ∧
    (∀ (db : DbState) (loc : Int) (old new : List Char) (now : Int) (r : DocRow),
      r ∈ db.documents → r.locationId = loc → (old ++ ['/']) <+: r.relPath →
      ({ r with relPath := new ++ r.relPath.drop old.length, updatedAt := now } :
        DocRow) ∈ (updateDirectoryPathsInIndex db loc old new now).documents) ∧
    (∀ (db : DbState) (loc : Int) (old new : List Char) (now : Int) (r : DocRow),
      r ∈ db.documents →
      (r.locationId ≠ loc ∨ (r.relPath ≠ old ∧
        ¬ (old.map asciiLowerChar ++ ['/']) <+: (r.relPath.map asciiLowerChar))) →
      r ∈ (updateDirectoryPathsInIndex db loc old new now).documents) ∧
    (∀ (db : DbState) (loc : Int) (old new : List Char) (now : Int) (r : FtsRow),
      r ∈ db.fts → r.locationId = loc → r.relPath = old →
      ({ r with relPath := new } : FtsRow) ∈
        (updateDirectoryPathsInIndex db loc old new now).fts) ∧
    (∀ (db : DbState) (loc : Int) (old new : List Char) (now : Int) (r : FtsRow),
      r ∈ db.fts → r.locationId = loc → (old ++ ['/']) <+: r.relPath →
      ({ r with relPath := new ++ r.relPath.drop old.length } : FtsRow) ∈
        (updateDirectoryPathsInIndex db loc old new now).fts) ∧
    (∀ (db : DbState) (loc : Int) (old new : List Char) (now : Int) (r : FtsRow),
      r ∈ db.fts →
      (r.locationId ≠ loc ∨ (r.relPath ≠ old ∧
        ¬ (old.map asciiLowerChar ++ ['/']) <+: (r.relPath.map asciiLowerChar))) →
      r ∈ (updateDirectoryPathsInIndex db loc old new now).fts) := by
  have hslash : asciiLowerChar '/' = '/' := by decide
  refine ⟨likeMatch_dir_pattern, ?_, ?_, ?_, ?_, ?_, ?_⟩
  · intro db loc old new now r hmem hloc hrel
    have hmatch : dirRowMatches loc old r.locationId r.relPath := ⟨hloc, Or.inl hrel⟩
    have hdrop : r.relPath.drop old.length = [] := by
      rw [hrel]; exact List.drop_length old
    have h := List.mem_map_of_mem (fun r : DocRow =>
      if dirRowMatches loc old r.locationId r.relPath then
        { r with relPath := new ++ r.relPath.drop old.length, updatedAt := now }
      else r) hmem
    simp only [] at h
    rw [if_pos hmatch, hdrop, List.append_nil] at h
    exact h
  · intro db loc old new now r hmem hloc hpre
    have hlow : (old.map asciiLowerChar ++ ['/']) <+: (r.relPath.map asciiLowerChar) := by
      have := hpre.map asciiLowerChar
      simpa [hslash] using this
    have hmatch : dirRowMatches loc old r.locationId r.relPath :=
      ⟨hloc, Or.inr ((likeMatch_dir_pattern old r.relPath).mpr hlow)⟩
    have h := List.mem_map_of_mem (fun r : DocRow =>
      if dirRowMatches loc old r.locationId r.relPath then
        { r with relPath := new ++ r.relPath.drop old.length, updatedAt := now }
      else r) hmem
    simp only [] at h
    rw [if_pos hmatch] at h
    exact h
  · intro db loc old new now r hmem hout
    have hnot : ¬ dirRowMatches loc old r.locationId r.relPath := by
      rintro ⟨h1, h2⟩
      rcases hout with hl | ⟨hne, hnp⟩
      · exact hl h1
      · rcases h2 with he | hlike
        · exact hne he
        · exact hnp ((likeMatch_dir_pattern old r.relPath).mp hlike)
    have h := List.mem_map_of_mem (fun r : DocRow =>
      if dirRowMatches loc old r.locationId r.relPath then
        { r with relPath := new ++ r.relPath.drop old.length, updatedAt := now }
      else r) hmem
    simp only [] at h
    rw [if_neg hnot] at h
    exact h
  · intro db loc old new now r hmem hloc hrel
    have hmatch : dirRowMatches loc old r.locationId r.relPath := ⟨hloc, Or.inl hrel⟩
    have hdrop : r.relPath.drop old.length = [] := by
      rw [hrel]; exact List.drop_length old
    have h := List.mem_map_of_mem (fun r : FtsRow =>
      if dirRowMatches loc old r.locationId r.relPath then
        { r with relPath := new ++ r.relPath.drop old.length }
      else r) hmem
    simp only [] at h
    rw [if_pos hmatch, hdrop, List.append_nil] at h
    exact h
  · intro db loc old new now r hmem hloc hpre
    have hlow : (old.map asciiLowerChar ++ ['/']) <+: (r.relPath.map asciiLowerChar) := by
      have := hpre.map asciiLowerChar
      simpa [hslash] using this
    have hmatch : dirRowMatches loc old r.locationId r.relPath :=
      ⟨hloc, Or.inr ((likeMatch_dir_pattern old r.relPath).mpr hlow)⟩
    have h := List.mem_map_of_mem (fun r : FtsRow =>
      if dirRowMatches loc old r.locationId r.relPath then
        { r with relPath := new ++ r.relPath.drop old.length }
      else r) hmem
    simp only [] at h
    rw [if_pos hmatch] at h
    exact h
  · intro db loc old new now r hmem hout
    have hnot : ¬ dirRowMatches loc old r.locationId r.relPath := by
      rintro ⟨h1, h2⟩
      rcases hout with hl | ⟨hne, hnp⟩
      · exact hl h1
      · rcases h2 with he | hlike
        · exact hne he
        · exact hnp ((likeMatch_dir_pattern old r.relPath).mp hlike)
    have h := List.mem_map_of_mem (fun r : FtsRow =>
      if dirRowMatches loc old r.locationId r.relPath then
        { r with relPath := new ++ r.relPath.drop old.length }
      else r) hmem
    simp only [] at h
    rw [if_neg hnot] at h
    exact h

/-- C5 counterexample: a catalog row `A/x.md` of the same location is
**not** equal to `a` and not under `a/`, yet `dir_move`'s rewrite with
`old = "a"`, `new = "b"` changes it to `b/x.md`, because SQLite's default
`LIKE` matches `a/%` against `A/...` ASCII-case-insensitively — refuting
the claim that such rows are unchanged. -/
theorem C5_counterexample :
    (updateDirectoryPathsInIndex
        ⟨[⟨1, "A/x.md".data, "x.md".data, 7, 3, none, none, 0, 0, false, none,
          none, 0⟩], []⟩ 1 "a".data "b".data 5).documents =
      [⟨1, "b/x.md".data, "x.md".data, 7, 3, none, none, 0, 0, false, none,
        none, 5⟩] ∧
    ¬ ("a".data ++ ['/']) <+: "A/x.md".data ∧
    "A/x.md".data ≠ "a".data := by
  refine ⟨?_, by decide, by decide⟩
  have hlow : ("a".data.map asciiLowerChar ++ ['/']) <+:
      ("A/x.md".data.map asciiLowerChar) := by decide
  have hlike := (likeMatch_dir_pattern "a".data "A/x.md".data).mpr hlow
  have hmatch : dirRowMatches 1 "a".data 1 "A/x.md".data := ⟨rfl, Or.inr hlike⟩
  show List.map _ _ = _
  rw [List.map_cons, List.map_nil]
  congr 1
  rw [if_pos hmatch]
  decide

/-- Closed witness for `C5_directory_path_rewrite`. -/
theorem C5_witness :
    likeMatch (escapeLike "a%b".data ++ '/' :: '%' :: []) "a%b/f.md".data = true ∧
    (⟨2, "x/q.md".data, "q".data, "body".data⟩ : FtsRow) ∈
      (updateDirectoryPathsInIndex ⟨[], [⟨2, "x/q.md".data, "q".data, "body".data⟩]⟩
        1 "a".data "b".data 5).fts := by
  constructor
  · exact (C5_directory_path_rewrite.1 "a%b".data "a%b/f.md".data).mpr (by decide)
  · exact C5_directory_path_rewrite.2.2.2.2.2.2 _ 1 "a".data "b".data 5 _
      (by simp) (Or.inl (by decide))

end Writer

namespace Writer

/-! ## Reconciliation lemmas (C2) -/

theorem applyDocUpdate_key (r : DocRow) (m : DocMeta) (now : Int) :
    (applyDocUpdate r m now).locationId = r.locationId ∧
      (applyDocUpdate r m now).relPath = r.relPath :=
  ⟨rfl, rfl⟩

theorem coalesce_idem {α : Type} (a b : Option α) :
    coalesce (coalesce a b) b = coalesce a b := by
  cases a <;> cases b <;> rfl

theorem applyDocUpdate_twice (r : DocRow) (m : DocMeta) (n1 n2 : Int) :
    applyDocUpdate (applyDocUpdate r m n1) m n2 =
      { applyDocUpdate r m n1 with updatedAt := n2 } := by
  simp [applyDocUpdate, coalesce_idem]

theorem applyDocUpdate_fresh (l : Int) (p : List Char) (m : DocMeta) (n1 n2 : Int) :
    applyDocUpdate (docRowOfMeta l p m n1) m n2 =
      { docRowOfMeta l p m n1 with updatedAt := n2 } := by
  simp only [applyDocUpdate, docRowOfMeta]
  cases m.createdAt <;> rfl

theorem updIfSeen_key (c : Collab) (locationId : Int) (files : List FsFile)
    (now : Int) (r : DocRow) :
    (updIfSeen c locationId files now r).locationId = r.locationId ∧
      (updIfSeen c locationId files now r).relPath = r.relPath := by
  unfold updIfSeen
  cases fileByRel files r.relPath with
  | none => exact ⟨rfl, rfl⟩
  | some f =>
    simp only []
    by_cases h : r.locationId = locationId
    · rw [if_pos h]; exact applyDocUpdate_key r _ now
    · rw [if_neg h]; exact ⟨rfl, rfl⟩

theorem any_key_map (docs : List DocRow) (g : DocRow → DocRow)
    (hg : ∀ r, (g r).locationId = r.locationId ∧ (g r).relPath = r.relPath)
    (l : Int) (p : List Char) :
    (docs.map g).any (fun r => decide (r.hasKey l p)) =
      docs.any (fun r => decide (r.hasKey l p)) := by
  induction docs with
  | nil => rfl
  | cons d ds ih =>
    simp only [List.map_cons, List.any_cons, ih]
    have : (g d).hasKey l p ↔ d.hasKey l p := by
      unfold DocRow.hasKey
      rw [(hg d).1, (hg d).2]
    simp [this]

theorem fileByRel_none_iff (files : List FsFile) (rel : List Char) :
    fileByRel files rel = none ↔ rel ∉ files.map (·.relPath) := by
  unfold fileByRel
  rw [List.find?_eq_none]
  constructor
  · intro h hmem
    rcases List.mem_map.mp hmem with ⟨f, hf, hrel⟩
    exact h f hf (by simpa using hrel)
  · intro h f hf
    simp only [decide_eq_true_eq]
    intro heq
    exact h (List.mem_map.mpr ⟨f, hf, heq⟩)

theorem fileByRel_of_mem (files : List FsFile) (f : FsFile)
    (hnd : (files.map (·.relPath)).Nodup) (hf : f ∈ files) :
    fileByRel files f.relPath = some f := by
  induction files with
  | nil => simp at hf
  | cons g gs ih =>
    rcases List.mem_cons.mp hf with rfl | hmem
    · unfold fileByRel
      exact List.find?_cons_of_pos _ (by simp)
    · have hne : g.relPath ≠ f.relPath := by
        intro heq
        have : g.relPath ∈ gs.map (·.relPath) :=
          heq ▸ List.mem_map.mpr ⟨f, hmem, rfl⟩
        exact (List.nodup_cons.mp (by simpa using hnd)).1 this
      unfold fileByRel
      rw [List.find?_cons_of_neg _ (by simpa using hne)]
      exact ih (List.nodup_cons.mp (by simpa using hnd)).2 hmem

end Writer

namespace Writer

theorem canonicalFtsRow_key (c : Collab) (l : Int) (f : FsFile) (row : FtsRow)
    (h : canonicalFtsRow c l f = some row) :
    row.locationId = l ∧ row.relPath = f.relPath := by
  unfold canonicalFtsRow at h
  by_cases hidx : isIndexablePath f.relPath
  · rw [if_pos hidx] at h
    cases hdet : f.textDetect with
    | some text =>
      rw [hdet] at h
      have := Option.some.inj h
      subst this
      exact ⟨rfl, rfl⟩
    | none => rw [hdet] at h; exact absurd h (by simp)
  · rw [if_neg hidx] at h
    exact absurd h (by simp)

theorem ftsStep_eq (c : Collab) (locationId : Int) (fts : List FtsRow) (f : FsFile) :
    ftsStep c locationId fts f =
      fts.filter (fun r => decide (¬ r.hasKey locationId f.relPath)) ++
        (canonicalFtsRow c locationId f).toList := by
  unfold ftsStep canonicalFtsRow
  by_cases hidx : isIndexablePath f.relPath
  · rw [if_pos hidx, if_pos hidx]
    cases hdet : f.textDetect with
    | some text =>
      simp [indexDocumentText, hidx, upsertFtsEntry]
    | none =>
      simp [removeFtsEntry]
  · rw [if_neg hidx, if_neg hidx]
    simp [removeFtsEntry]

theorem foldFts_cons (c : Collab) (locationId : Int) (f : FsFile) (fs : List FsFile)
    (fts : List FtsRow) :
    foldFts c locationId (f :: fs) fts =
      foldFts c locationId fs (ftsStep c locationId fts f) := rfl

theorem foldFts_eq (c : Collab) (locationId : Int) :
    ∀ (files : List FsFile) (fts : List FtsRow),
      (files.map (·.relPath)).Nodup →
      foldFts c locationId files fts =
        fts.filter (fun r =>
          ! files.any (fun f => decide (r.hasKey locationId f.relPath))) ++
          canonicalFts c locationId files := by
  intro files
  induction files with
  | nil =>
    intro fts hnd
    simp [foldFts, canonicalFts]
  | cons f fs ih =>
    intro fts hnd
    have hnd' : (fs.map (·.relPath)).Nodup := (List.nodup_cons.mp (by simpa using hnd)).2
    have hf_not : f.relPath ∉ fs.map (·.relPath) := (List.nodup_cons.mp (by simpa using hnd)).1
    rw [foldFts_cons, ih _ hnd', ftsStep_eq, List.filter_append, List.filter_filter]
    have hcanon : canonicalFts c locationId (f :: fs) =
        (canonicalFtsRow c locationId f).toList ++ canonicalFts c locationId fs := by
      unfold canonicalFts
      rw [List.filterMap_cons]
      cases canonicalFtsRow c locationId f <;> simp
    rw [hcanon]
    have hopt : (canonicalFtsRow c locationId f).toList.filter
        (fun r => ! fs.any (fun g => decide (r.hasKey locationId g.relPath))) =
        (canonicalFtsRow c locationId f).toList := by
      cases hrow : canonicalFtsRow c locationId f with
      | none => rfl
      | some row =>
        rcases canonicalFtsRow_key c locationId f row hrow with ⟨hl, hr⟩
        simp only [Option.toList_some, List.filter_cons]
        rw [if_pos]
        · rfl
        · simp only [Bool.not_eq_true', List.any_eq_false]
          intro g hg
          simp only [decide_eq_true_eq, FtsRow.hasKey, hl, hr]
          rintro ⟨-, heq⟩
          exact hf_not (heq ▸ List.mem_map.mpr ⟨g, hg, rfl⟩)
    rw [hopt]
    have hfilter : (fts.filter (fun r =>
        (! fs.any (fun g => decide (r.hasKey locationId g.relPath))) &&
          decide (¬ r.hasKey locationId f.relPath))) =
        fts.filter (fun r =>
          ! (f :: fs).any (fun g => decide (r.hasKey locationId g.relPath))) := by
      apply List.filter_congr
      intro r _
      simp only [List.any_cons, Bool.not_or, decide_not]
      exact Bool.and_comm _ _
    rw [hfilter, List.append_assoc]

end Writer

namespace Writer

theorem fileByRel_cons_pos (f : FsFile) (fs : List FsFile) (rel : List Char)
    (h : f.relPath = rel) : fileByRel (f :: fs) rel = some f := by
  unfold fileByRel
  exact List.find?_cons_of_pos _ (by simpa using h)

theorem fileByRel_cons_neg (f : FsFile) (fs : List FsFile) (rel : List Char)
    (h : ¬ f.relPath = rel) : fileByRel (f :: fs) rel = fileByRel fs rel := by
  unfold fileByRel
  exact List.find?_cons_of_neg _ (by simpa using h)

theorem updIfSeen_nil (c : Collab) (locId : Int) (now : Int) (r : DocRow) :
    updIfSeen c locId [] now r = r := rfl

/-- Pointwise composition of one file's key update with the remaining
walk, for a file whose path does not recur. -/
theorem updIfSeen_updKey (c : Collab) (locId : Int) (now : Int) (f : FsFile)
    (fs : List FsFile) (hnot : f.relPath ∉ fs.map (·.relPath)) (r : DocRow) :
    updIfSeen c locId fs now
      (if r.hasKey locId f.relPath then
        applyDocUpdate r (readDocMetadata c f) now
      else r) =
      updIfSeen c locId (f :: fs) now r := by
  by_cases hk : r.hasKey locId f.relPath
  · rcases hk with ⟨hloc, hrel⟩
    rw [if_pos ⟨hloc, hrel⟩]
    unfold updIfSeen
    have h1 : fileByRel fs (applyDocUpdate r (readDocMetadata c f) now).relPath = none := by
      rw [(applyDocUpdate_key r _ now).2, hrel]
      exact (fileByRel_none_iff fs f.relPath).mpr hnot
    rw [h1, fileByRel_cons_pos f fs r.relPath hrel.symm]
    simp only []
    rw [if_pos hloc]
  · rw [if_neg hk]
    by_cases hrel : r.relPath = f.relPath
    · have hloc : ¬ r.locationId = locId := fun hl => hk ⟨hl, hrel⟩
      unfold updIfSeen
      have h1 : fileByRel fs r.relPath = none := by
        rw [hrel]
        exact (fileByRel_none_iff fs f.relPath).mpr hnot
      rw [h1, fileByRel_cons_pos f fs r.relPath hrel.symm]
      simp only []
      rw [if_neg hloc]
    · unfold updIfSeen
      rw [fileByRel_cons_neg f fs r.relPath (fun h => hrel h.symm)]

/-- Pointwise skip of a file whose key is absent from the row. -/
theorem updIfSeen_skip (c : Collab) (locId : Int) (now : Int) (f : FsFile)
    (fs : List FsFile) (hnot : f.relPath ∉ fs.map (·.relPath)) (r : DocRow)
    (hk : ¬ r.hasKey locId f.relPath) :
    updIfSeen c locId fs now r = updIfSeen c locId (f :: fs) now r := by
  by_cases hrel : r.relPath = f.relPath
  · have hloc : ¬ r.locationId = locId := fun hl => hk ⟨hl, hrel⟩
    unfold updIfSeen
    have h1 : fileByRel fs r.relPath = none := by
      rw [hrel]
      exact (fileByRel_none_iff fs f.relPath).mpr hnot
    rw [h1, fileByRel_cons_pos f fs r.relPath hrel.symm]
    simp only []
    rw [if_neg hloc]
  · unfold updIfSeen
    rw [fileByRel_cons_neg f fs r.relPath (fun h => hrel h.symm)]

theorem freshRows_map_keys (c : Collab) (locId : Int) (docs : List DocRow)
    (g : DocRow → DocRow)
    (hg : ∀ r, (g r).locationId = r.locationId ∧ (g r).relPath = r.relPath)
    (files : List FsFile) (now : Int) :
    freshRows c locId (docs.map g) files now = freshRows c locId docs files now := by
  unfold freshRows
  congr 1
  apply List.filter_congr
  intro f _
  rw [any_key_map docs g hg]

theorem freshRows_append_key (c : Collab) (locId : Int) (docs : List DocRow)
    (row : DocRow) (fs : List FsFile) (now : Int)
    (hrow : ∀ f ∈ fs, ¬ row.hasKey locId f.relPath) :
    freshRows c locId (docs ++ [row]) fs now = freshRows c locId docs fs now := by
  unfold freshRows
  congr 1
  apply List.filter_congr
  intro f hf
  simp [List.any_append, hrow f hf]

theorem freshRows_cons_present (c : Collab) (locId : Int) (docs : List DocRow)
    (f : FsFile) (fs : List FsFile) (now : Int)
    (h : docs.any (fun r => decide (r.hasKey locId f.relPath)) = true) :
    freshRows c locId docs (f :: fs) now = freshRows c locId docs fs now := by
  unfold freshRows
  rw [List.filter_cons]
  simp [h]

theorem freshRows_cons_absent (c : Collab) (locId : Int) (docs : List DocRow)
    (f : FsFile) (fs : List FsFile) (now : Int)
    (h : docs.any (fun r => decide (r.hasKey locId f.relPath)) = false) :
    freshRows c locId docs (f :: fs) now =
      docRowOfMeta locId f.relPath (readDocMetadata c f) now ::
        freshRows c locId docs fs now := by
  unfold freshRows
  rw [List.filter_cons]
  simp [h]

theorem foldDocs_cons (c : Collab) (locId : Int) (now : Int) (f : FsFile)
    (fs : List FsFile) (docs : List DocRow) :
    foldDocs c locId now (f :: fs) docs =
      foldDocs c locId now fs
        (updateDocInCatalog docs locId f.relPath (readDocMetadata c f) now) := rfl

/-- Normal form of the catalog walk: pre-existing rows updated in place,
fresh rows appended in enumeration order. -/
theorem foldDocs_eq (c : Collab) (locId : Int) (now : Int) :
    ∀ (files : List FsFile) (docs : List DocRow),
      (files.map (·.relPath)).Nodup →
      foldDocs c locId now files docs =
        docs.map (updIfSeen c locId files now) ++
          freshRows c locId docs files now := by
  intro files
  induction files with
  | nil =>
    intro docs hnd
    have h1 : docs.map (updIfSeen c locId [] now) = docs := by
      rw [show docs.map (updIfSeen c locId [] now) = docs.map id from
        List.map_congr_left fun r _ => updIfSeen_nil c locId now r]
      exact List.map_id docs
    simp [foldDocs, freshRows, h1]
  | cons f fs ih =>
    intro docs hnd
    have hnd' : (fs.map (·.relPath)).Nodup := (List.nodup_cons.mp (by simpa using hnd)).2
    have hf_not : f.relPath ∉ fs.map (·.relPath) :=
      (List.nodup_cons.mp (by simpa using hnd)).1
    rw [foldDocs_cons]
    unfold updateDocInCatalog
    by_cases hany : docs.any (fun r => decide (r.hasKey locId f.relPath)) = true
    · rw [if_pos hany, ih _ hnd', List.map_map]
      have hmapeq : docs.map (updIfSeen c locId fs now ∘ (fun r =>
          if r.hasKey locId f.relPath then
            applyDocUpdate r (readDocMetadata c f) now
          else r)) = docs.map (updIfSeen c locId (f :: fs) now) :=
        List.map_congr_left fun r _ => updIfSeen_updKey c locId now f fs hf_not r
      have hfresh1 : freshRows c locId (docs.map (fun r =>
          if r.hasKey locId f.relPath then
            applyDocUpdate r (readDocMetadata c f) now
          else r)) fs now = freshRows c locId docs fs now := by
        apply freshRows_map_keys
        intro r
        by_cases hk : r.hasKey locId f.relPath
        · simp only [if_pos hk]
          exact applyDocUpdate_key r _ now
        · simp [if_neg hk]
      rw [hmapeq, hfresh1,
        freshRows_cons_present c locId docs f fs now hany]
    · rw [if_neg hany, ih _ hnd', List.map_append]
      have habs := List.any_eq_false.mp (Bool.not_eq_true _ ▸ hany)
      have h1 : [docRowOfMeta locId f.relPath (readDocMetadata c f) now].map
          (updIfSeen c locId fs now) =
          [docRowOfMeta locId f.relPath (readDocMetadata c f) now] := by
        rw [List.map_singleton]
        congr 1
        unfold updIfSeen
        have : fileByRel fs (docRowOfMeta locId f.relPath (readDocMetadata c f)
            now).relPath = none := by
          show fileByRel fs f.relPath = none
          exact (fileByRel_none_iff fs f.relPath).mpr hf_not
        rw [this]
      have h2 : docs.map (updIfSeen c locId fs now) =
          docs.map (updIfSeen c locId (f :: fs) now) := by
        apply List.map_congr_left
        intro r hr
        apply updIfSeen_skip c locId now f fs hf_not r
        have := habs r hr
        simpa using this
      have h3 : freshRows c locId (docs ++
          [docRowOfMeta locId f.relPath (readDocMetadata c f) now]) fs now =
          freshRows c locId docs fs now := by
        apply freshRows_append_key
        intro g hg
        intro hkey
        rcases hkey with ⟨-, hrel⟩
        have : f.relPath = g.relPath := hrel
        exact hf_not (this ▸ List.mem_map.mpr ⟨g, hg, rfl⟩)
      have h4 : freshRows c locId docs (f :: fs) now =
          docRowOfMeta locId f.relPath (readDocMetadata c f) now ::
            freshRows c locId docs fs now :=
        freshRows_cons_absent c locId docs f fs now
          (by rwa [Bool.not_eq_true] at hany)
      rw [h1, h2, h3, h4, List.append_assoc]
      rfl

end Writer

namespace Writer

/-- The reconciliation fold splits into independent catalog, FTS and
count components. -/
theorem reconcileWalk_eq (c : Collab) (locId : Int) (now : Int) :
    ∀ (files : List FsFile) (st : DbState) (n : Nat),
      files.foldl (reconcileStep c locId now) (st, n) =
        (⟨foldDocs c locId now files st.documents,
          foldFts c locId files st.fts⟩, n + countIdx files) := by
  intro files
  induction files with
  | nil =>
    intro st n
    rfl
  | cons f fs ih =>
    intro st n
    rw [List.foldl_cons]
    have hstep : reconcileStep c locId now (st, n) f =
        (⟨updateDocInCatalog st.documents locId f.relPath (readDocMetadata c f) now,
          ftsStep c locId st.fts f⟩,
          n + (if isIndexablePath f.relPath && f.textDetect.isSome then 1 else 0)) := by
      unfold reconcileStep ftsStep
      cases hi : isIndexablePath f.relPath with
      | true =>
        cases htd : f.textDetect with
        | some text => simp [hi, htd]
        | none => simp [hi, htd]
      | false => simp [hi]
    rw [hstep, ih]
    refine congrArg₂ Prod.mk rfl ?_
    simp only [countIdx, List.countP_cons]
    by_cases hc : (isIndexablePath f.relPath && f.textDetect.isSome) = true
    · simp only [hc, if_pos]
      simp [List.countP]
      omega
    · simp only [hc]
      simp [List.countP, hc]

end Writer

namespace Writer

/-- With an existing root, one `reconcile_location_index` call is exactly
the indexed count and the swept pass state. -/
theorem reconcileLocationIndex_eq (c : Collab) (fs : LocFs) (locId now : Int)
    (st : DbState) (hroot : fs.rootExists = true)
    (hnd : (fs.files.map (·.relPath)).Nodup) :
    reconcileLocationIndex c fs locId now st =
      (countIdx fs.files, reconPass c locId now fs.files st) := by
  unfold reconcileLocationIndex
  rw [if_neg (by simp [hroot])]
  simp only [reconcileWalk_eq c locId now fs.files st 0,
    foldDocs_eq c locId now fs.files st.documents hnd,
    foldFts_eq c locId fs.files st.fts hnd, Nat.zero_add]
  unfold reconPass passDocs staleOf
  rfl

end Writer

namespace Writer

theorem staleOf_not_seen (locId : Int) (files : List FsFile) (d : List DocRow)
    (p : List Char) (hp : p ∈ staleOf locId files d) :
    p ∉ files.map (·.relPath) := by
  unfold staleOf at hp
  rcases List.mem_map.mp hp with ⟨r, hr, rfl⟩
  have hc := List.of_mem_filter hr
  simp only [decide_eq_true_eq] at hc
  exact hc.2

/-- After the sweep, every surviving row of the reconciled location has an
enumerated path. -/
theorem reconPass_docs_loc_seen (c : Collab) (locId now : Int)
    (files : List FsFile) (st : DbState) (r : DocRow)
    (hr : r ∈ (reconPass c locId now files st).documents)
    (hloc : r.locationId = locId) : r.relPath ∈ files.map (·.relPath) := by
  unfold reconPass at hr
  have hmem := List.mem_of_mem_filter hr
  have hcond := List.of_mem_filter hr
  simp only [decide_eq_true_eq] at hcond
  by_contra hseen
  apply hcond
  refine ⟨hloc, ?_⟩
  unfold staleOf
  exact List.mem_map.mpr
    ⟨r, List.mem_filter.mpr ⟨hmem, by simp [hloc, hseen]⟩, rfl⟩

/-- Every walked row of the reconciled location with an enumerated path is
canonical: its `updated_at` is the pass timestamp and a further pass only
refreshes `updated_at` again. -/
theorem passDocs_canonical (c : Collab) (locId now : Int) (files : List FsFile)
    (docs : List DocRow) (hnd : (files.map (·.relPath)).Nodup) (r : DocRow)
    (hr : r ∈ passDocs c locId now files docs)
    (hloc : r.locationId = locId) (hseen : r.relPath ∈ files.map (·.relPath)) :
    r.updatedAt = now ∧
      ∀ n2 : Int, updIfSeen c locId files n2 r = { r with updatedAt := n2 } := by
  unfold passDocs at hr
  rcases List.mem_append.mp hr with hmap | hfresh
  · rcases List.mem_map.mp hmap with ⟨r0, hr0, hre⟩
    have hrel : r.relPath = r0.relPath := by
      rw [← hre]; exact (updIfSeen_key c locId files now r0).2
    have hloc0 : r0.locationId = locId := by
      rw [← (updIfSeen_key c locId files now r0).1, hre, hloc]
    cases hfb : fileByRel files r0.relPath with
    | none =>
      exact absurd (hrel ▸ hseen) ((fileByRel_none_iff files r0.relPath).mp hfb)
    | some f =>
      have hform : r = applyDocUpdate r0 (readDocMetadata c f) now := by
        rw [← hre]
        unfold updIfSeen
        rw [hfb]
        simp only []
        rw [if_pos hloc0]
      constructor
      · rw [hform]; rfl
      · intro n2
        have hfb2 : fileByRel files r.relPath = some f := by rw [hrel]; exact hfb
        unfold updIfSeen
        rw [hfb2]
        simp only []
        rw [if_pos hloc, hform, applyDocUpdate_twice]
  · unfold freshRows at hfresh
    rcases List.mem_map.mp hfresh with ⟨g, hg, hre⟩
    have hgmem : g ∈ files := List.mem_of_mem_filter hg
    constructor
    · rw [← hre]; rfl
    · intro n2
      have hrel : r.relPath = g.relPath := by rw [← hre]; rfl
      have hfb2 : fileByRel files r.relPath = some g := by
        rw [hrel]; exact fileByRel_of_mem files g hnd hgmem
      unfold updIfSeen
      rw [hfb2]
      simp only []
      rw [if_pos hloc, ← hre, applyDocUpdate_fresh]

end Writer

namespace Writer

/-- After one walk, every enumerated file's key is present in the
catalog. -/
theorem passDocs_key_present (c : Collab) (locId now : Int) (files : List FsFile)
    (docs : List DocRow) (f : FsFile) (hf : f ∈ files) :
    (passDocs c locId now files docs).any
      (fun r => decide (r.hasKey locId f.relPath)) = true := by
  unfold passDocs
  rw [List.any_append]
  cases hany : docs.any (fun r => decide (r.hasKey locId f.relPath)) with
  | true =>
    rw [Bool.or_eq_true]
    left
    rcases List.any_eq_true.mp hany with ⟨r, hr, hkey⟩
    apply List.any_eq_true.mpr
    refine ⟨updIfSeen c locId files now r, List.mem_map.mpr ⟨r, hr, rfl⟩, ?_⟩
    have hk := of_decide_eq_true hkey
    apply decide_eq_true
    exact ⟨(updIfSeen_key c locId files now r).1.trans hk.1,
      (updIfSeen_key c locId files now r).2.trans hk.2⟩
  | false =>
    rw [Bool.or_eq_true]
    right
    apply List.any_eq_true.mpr
    unfold freshRows
    refine ⟨docRowOfMeta locId f.relPath (readDocMetadata c f) now,
      List.mem_map.mpr ⟨f, List.mem_filter.mpr ⟨hf, ?_⟩, rfl⟩, ?_⟩
    · simp [hany]
    · exact decide_eq_true ⟨rfl, rfl⟩

/-- The canonical catalog row of an enumerated file survives the stale
sweep. -/
theorem reconPass_key_present (c : Collab) (locId now : Int)
    (files : List FsFile) (st : DbState) (f : FsFile) (hf : f ∈ files) :
    ((reconPass c locId now files st).documents).any
      (fun r => decide (r.hasKey locId f.relPath)) = true := by
  rcases List.any_eq_true.mp
    (passDocs_key_present c locId now files st.documents f hf) with ⟨r, hr, hkey⟩
  unfold reconPass
  apply List.any_eq_true.mpr
  refine ⟨r, List.mem_filter.mpr ⟨hr, ?_⟩, hkey⟩
  apply decide_eq_true
  rintro ⟨hloc, hstale⟩
  have hrel : r.relPath = f.relPath := (of_decide_eq_true hkey).2
  exact staleOf_not_seen locId files _ r.relPath hstale
    (hrel ▸ List.mem_map.mpr ⟨f, hf, rfl⟩)

theorem freshRows_eq_nil (c : Collab) (locId : Int) (docs : List DocRow)
    (files : List FsFile) (now : Int)
    (h : ∀ f ∈ files, docs.any (fun r => decide (r.hasKey locId f.relPath)) = true) :
    freshRows c locId docs files now = [] := by
  unfold freshRows
  have hfil : files.filter (fun f =>
      ! docs.any (fun r => decide (r.hasKey locId f.relPath))) = [] := by
    apply List.filter_eq_nil_iff.mpr
    intro f hf
    simp [h f hf]
  rw [hfil]
  rfl

theorem canonicalFts_mem (c : Collab) (locId : Int) (files : List FsFile)
    (row : FtsRow) (h : row ∈ canonicalFts c locId files) :
    row.locationId = locId ∧ ∃ f ∈ files, row.relPath = f.relPath := by
  unfold canonicalFts at h
  rcases List.mem_filterMap.mp h with ⟨f, hf, hrow⟩
  have hk := canonicalFtsRow_key c locId f row hrow
  exact ⟨hk.1, f, hf, hk.2⟩

/-- Every canonical FTS row is keyed by an enumerated file, so the
delete-before-insert filter of a second pass removes none of the rest. -/
theorem canonicalFts_filter_keyed (c : Collab) (locId : Int)
    (files : List FsFile) :
    (canonicalFts c locId files).filter (fun r =>
      ! files.any (fun f => decide (r.hasKey locId f.relPath))) = [] := by
  apply List.filter_eq_nil_iff.mpr
  intro row hrow
  rcases canonicalFts_mem c locId files row hrow with ⟨hloc, f, hf, hrel⟩
  have hany : files.any (fun g => decide (row.hasKey locId g.relPath)) = true :=
    List.any_eq_true.mpr ⟨f, hf, decide_eq_true ⟨hloc, hrel⟩⟩
  simp [hany]

/-- Canonical FTS rows survive any stale sweep of the same pass. -/
theorem canonicalFts_filter_stale (c : Collab) (locId : Int)
    (files : List FsFile) (d : List DocRow) :
    (canonicalFts c locId files).filter (fun r =>
      decide (¬ (r.locationId = locId ∧ r.relPath ∈ staleOf locId files d))) =
      canonicalFts c locId files := by
  apply List.filter_eq_self.mpr
  intro row hrow
  rcases canonicalFts_mem c locId files row hrow with ⟨hloc, f, hf, hrel⟩
  apply decide_eq_true
  rintro ⟨-, hstale⟩
  exact staleOf_not_seen locId files d row.relPath hstale
    (hrel ▸ List.mem_map.mpr ⟨f, hf, rfl⟩)

theorem filter_filter_absorb {α : Type} (l : List α) (p q : α → Bool) :
    ((l.filter p).filter q).filter p = (l.filter p).filter q := by
  apply List.filter_eq_self.mpr
  intro a ha
  exact List.of_mem_filter (List.mem_of_mem_filter ha)

end Writer

namespace Writer

theorem reconPass_docs_eq (c : Collab) (locId now : Int) (files : List FsFile)
    (st : DbState) :
    (reconPass c locId now files st).documents =
      (passDocs c locId now files st.documents).filter (fun r =>
        decide (¬ (r.locationId = locId ∧ r.relPath ∈ staleOf locId files
          (passDocs c locId now files st.documents)))) := rfl

theorem reconPass_fts_eq (c : Collab) (locId now : Int) (files : List FsFile)
    (st : DbState) :
    (reconPass c locId now files st).fts =
      (st.fts.filter (fun r =>
          ! files.any (fun f => decide (r.hasKey locId f.relPath))) ++
        canonicalFts c locId files).filter (fun r =>
          decide (¬ (r.locationId = locId ∧ r.relPath ∈ staleOf locId files
            (passDocs c locId now files st.documents)))) := rfl

/-- A second pass on an already reconciled state finds nothing stale. -/
theorem staleOf_passDocs_reconPass (c : Collab) (locId now1 now2 : Int)
    (files : List FsFile) (st : DbState) :
    staleOf locId files (passDocs c locId now2 files
      (reconPass c locId now1 files st).documents) = [] := by
  unfold staleOf
  have hfil : (passDocs c locId now2 files
      (reconPass c locId now1 files st).documents).filter
      (fun r => decide (r.locationId = locId ∧
        r.relPath ∉ files.map (·.relPath))) = [] := by
    apply List.filter_eq_nil_iff.mpr
    intro r hr
    simp only [decide_eq_true_eq]
    rintro ⟨hloc, hnseen⟩
    unfold passDocs at hr
    rcases List.mem_append.mp hr with hmap | hfresh
    · rcases List.mem_map.mp hmap with ⟨r0, hr0, hre⟩
      apply hnseen
      rw [← hre, (updIfSeen_key c locId files now2 r0).2]
      apply reconPass_docs_loc_seen c locId now1 files st r0 hr0
      rw [← (updIfSeen_key c locId files now2 r0).1, hre, hloc]
    · unfold freshRows at hfresh
      rcases List.mem_map.mp hfresh with ⟨g, hg, hre⟩
      apply hnseen
      rw [← hre]
      exact List.mem_map.mpr ⟨g, List.mem_of_mem_filter hg, rfl⟩
  rw [hfil]
  rfl

theorem updIfSeen_not_touched (c : Collab) (locId : Int) (files : List FsFile)
    (now : Int) (r : DocRow)
    (h : ¬ (r.locationId = locId ∧ r.relPath ∈ files.map (·.relPath))) :
    updIfSeen c locId files now r = r := by
  unfold updIfSeen
  cases hfb : fileByRel files r.relPath with
  | none => rfl
  | some f =>
    simp only []
    unfold fileByRel at hfb
    have hmem : r.relPath ∈ files.map (·.relPath) := by
      have hf := List.mem_of_find?_eq_some hfb
      have heq : f.relPath = r.relPath := by
        have := List.find?_some hfb
        simpa using this
      exact heq ▸ List.mem_map.mpr ⟨f, hf, rfl⟩
    rw [if_neg (fun hloc => h ⟨hloc, hmem⟩)]

/-- A second reconciliation pass leaves the FTS table exactly as the first
pass left it. -/
theorem reconPass_fts_again (c : Collab) (locId now1 now2 : Int)
    (files : List FsFile) (st : DbState) :
    (reconPass c locId now2 files (reconPass c locId now1 files st)).fts =
      (reconPass c locId now1 files st).fts := by
  rw [reconPass_fts_eq c locId now2 files (reconPass c locId now1 files st),
    staleOf_passDocs_reconPass c locId now1 now2 files st]
  rw [List.filter_eq_self.mpr (fun r _ => by simp)]
  rw [reconPass_fts_eq c locId now1 files st, List.filter_append,
    canonicalFts_filter_stale, List.filter_append, canonicalFts_filter_keyed,
    filter_filter_absorb, List.append_nil]

/-- A second reconciliation pass only refreshes `updated_at` on the rows
of the reconciled location. -/
theorem reconPass_docs_again (c : Collab) (locId now1 now2 : Int)
    (files : List FsFile) (st : DbState)
    (hnd : (files.map (·.relPath)).Nodup) :
    (reconPass c locId now2 files (reconPass c locId now1 files st)).documents =
      ((reconPass c locId now1 files st).documents).map
        (reconcileTouch locId files now2) := by
  rw [reconPass_docs_eq c locId now2 files (reconPass c locId now1 files st),
    staleOf_passDocs_reconPass c locId now1 now2 files st]
  rw [List.filter_eq_self.mpr (fun r _ => by simp)]
  unfold passDocs
  rw [freshRows_eq_nil c locId _ files now2
    (fun f hf => reconPass_key_present c locId now1 files st f hf),
    List.append_nil]
  apply List.map_congr_left
  intro r hr
  by_cases hcond : r.locationId = locId ∧ r.relPath ∈ files.map (·.relPath)
  · have hpd : r ∈ passDocs c locId now1 files st.documents :=
      List.mem_of_mem_filter hr
    have hcanon := passDocs_canonical c locId now1 files st.documents hnd r hpd
      hcond.1 hcond.2
    rw [hcanon.2 now2]
    unfold reconcileTouch
    rw [if_pos hcond]
  · rw [updIfSeen_not_touched c locId files now2 r hcond]
    unfold reconcileTouch
    rw [if_neg hcond]

end Writer

namespace Writer

/-- The walk leaves no duplicate `(location_id, rel_path)` catalog keys:
updates keep each row's key and fresh inserts use keys absent from the
input, pairwise distinct by enumeration. -/
theorem passDocs_keys_nodup (c : Collab) (locId now : Int) (files : List FsFile)
    (docs : List DocRow) (hnd : (files.map (·.relPath)).Nodup)
    (hdocs : (docs.map DocRow.keyOf).Nodup) :
    ((passDocs c locId now files docs).map DocRow.keyOf).Nodup := by
  have hmapkeys : (docs.map (updIfSeen c locId files now)).map DocRow.keyOf =
      docs.map DocRow.keyOf := by
    rw [List.map_map]
    apply List.map_congr_left
    intro r _
    show (updIfSeen c locId files now r).keyOf = r.keyOf
    unfold DocRow.keyOf
    rw [(updIfSeen_key c locId files now r).1, (updIfSeen_key c locId files now r).2]
  have hfreshkeys : (freshRows c locId docs files now).map DocRow.keyOf =
      (files.filter (fun f =>
        ! docs.any (fun r => decide (r.hasKey locId f.relPath)))).map
        (fun f => ((locId, f.relPath) : Int × List Char)) := by
    unfold freshRows
    rw [List.map_map]
    rfl
  unfold passDocs
  rw [List.map_append, hmapkeys, hfreshkeys, List.nodup_append]
  refine ⟨hdocs, ?_, ?_⟩
  · have hsubl : ((files.filter (fun f =>
        ! docs.any (fun r => decide (r.hasKey locId f.relPath)))).map
        (·.relPath)).Sublist (files.map (·.relPath)) :=
      (List.filter_sublist files).map _
    have hsub : ((files.filter (fun f =>
        ! docs.any (fun r => decide (r.hasKey locId f.relPath)))).map
        (·.relPath)).Nodup := hnd.sublist hsubl
    have hre : (files.filter (fun f =>
        ! docs.any (fun r => decide (r.hasKey locId f.relPath)))).map
        (fun f => ((locId, f.relPath) : Int × List Char)) =
        ((files.filter (fun f =>
          ! docs.any (fun r => decide (r.hasKey locId f.relPath)))).map
          (·.relPath)).map (fun p => (locId, p)) := by
      rw [List.map_map]
      rfl
    rw [hre]
    refine hsub.map ?_
    intro a b h
    injection h
  · intro k hk1 hk2
    rcases List.mem_map.mp hk1 with ⟨r, hr, hkr⟩
    rcases List.mem_map.mp hk2 with ⟨f, hf, hkf⟩
    have hany : docs.any (fun r' => decide (r'.hasKey locId f.relPath)) = false := by
      have := List.of_mem_filter hf
      simpa using this
    have hkey : r.hasKey locId f.relPath := by
      have hkk : r.keyOf = ((locId, f.relPath) : Int × List Char) := by
        rw [hkr, ← hkf]
      unfold DocRow.keyOf at hkk
      exact ⟨congrArg Prod.fst hkk, congrArg Prod.snd hkk⟩
    have htrue : docs.any (fun r' => decide (r'.hasKey locId f.relPath)) = true :=
      List.any_eq_true.mpr ⟨r, hr, decide_eq_true hkey⟩
    rw [hany] at htrue
    exact Bool.false_ne_true htrue

/-- The canonical FTS keys are file keys, in enumeration order. -/
theorem canonicalFts_keys (c : Collab) (locId : Int) :
    ∀ files : List FsFile,
      ((canonicalFts c locId files).map FtsRow.keyOf).Sublist
        (files.map (fun f => ((locId, f.relPath) : Int × List Char))) := by
  intro files
  induction files with
  | nil => simp [canonicalFts]
  | cons f fs ih =>
    show ((List.filterMap (canonicalFtsRow c locId) (f :: fs)).map
      FtsRow.keyOf).Sublist _
    rw [List.filterMap_cons, List.map_cons]
    cases hrow : canonicalFtsRow c locId f with
    | none => exact ih.trans (List.sublist_cons_self _ _)
    | some row =>
      rw [List.map_cons]
      have hk := canonicalFtsRow_key c locId f row hrow
      have hkey : row.keyOf = ((locId, f.relPath) : Int × List Char) := by
        unfold FtsRow.keyOf
        rw [hk.1, hk.2]
      rw [hkey]
      exact ih.cons₂ _

/-- The walk leaves no duplicate FTS keys either. -/
theorem passFts_keys_nodup (c : Collab) (locId : Int) (files : List FsFile)
    (fts : List FtsRow) (hnd : (files.map (·.relPath)).Nodup)
    (hfts : (fts.map FtsRow.keyOf).Nodup) :
    (((fts.filter (fun r =>
        ! files.any (fun f => decide (r.hasKey locId f.relPath))) ++
      canonicalFts c locId files).map FtsRow.keyOf)).Nodup := by
  rw [List.map_append, List.nodup_append]
  refine ⟨hfts.sublist ((List.filter_sublist fts).map FtsRow.keyOf), ?_, ?_⟩
  · have hfiles : (files.map (fun f =>
        ((locId, f.relPath) : Int × List Char))).Nodup := by
      have hre : files.map (fun f => ((locId, f.relPath) : Int × List Char)) =
          (files.map (·.relPath)).map (fun p => (locId, p)) := by
        rw [List.map_map]
        rfl
      rw [hre]
      refine hnd.map ?_
      intro a b h
      injection h
    exact hfiles.sublist (canonicalFts_keys c locId files)
  · intro k hk1 hk2
    rcases List.mem_map.mp hk1 with ⟨r, hr, hkr⟩
    rcases List.mem_map.mp hk2 with ⟨row, hrow, hkrow⟩
    rcases canonicalFts_mem c locId files row hrow with ⟨hloc, f, hf, hrel⟩
    have hnot : files.any (fun g => decide (r.hasKey locId g.relPath)) = false := by
      have := List.of_mem_filter hr
      simpa using this
    have hkey : r.hasKey locId f.relPath := by
      have hkk : r.keyOf = row.keyOf := by rw [hkr, hkrow]
      unfold FtsRow.keyOf at hkk
      refine ⟨(congrArg Prod.fst hkk).trans hloc, ?_⟩
      exact ((congrArg Prod.snd hkk).trans hrel :)
    have htrue : files.any (fun g => decide (r.hasKey locId g.relPath)) = true :=
      List.any_eq_true.mpr ⟨f, hf, decide_eq_true hkey⟩
    rw [hnot] at htrue
    exact Bool.false_ne_true htrue

/-- One reconciliation pass preserves key uniqueness in both tables. -/
theorem reconPass_keys_nodup (c : Collab) (locId now : Int) (files : List FsFile)
    (st : DbState) (hnd : (files.map (·.relPath)).Nodup)
    (hdocs : (st.documents.map DocRow.keyOf).Nodup)
    (hfts : (st.fts.map FtsRow.keyOf).Nodup) :
    (((reconPass c locId now files st).documents).map DocRow.keyOf).Nodup ∧
      (((reconPass c locId now files st).fts).map FtsRow.keyOf).Nodup := by
  constructor
  · have h1 := passDocs_keys_nodup c locId now files st.documents hnd hdocs
    rw [reconPass_docs_eq]
    exact h1.sublist ((List.filter_sublist _).map DocRow.keyOf)
  · have h1 := passFts_keys_nodup c locId files st.fts hnd hfts
    rw [reconPass_fts_eq]
    exact h1.sublist ((List.filter_sublist _).map FtsRow.keyOf)

end Writer

namespace Writer

/-- With an unchanged timestamp, the refresh is invisible: every surviving
row already carries that `updated_at`. -/
theorem reconcileTouch_mem_id (c : Collab) (locId now1 : Int)
    (files : List FsFile) (st : DbState)
    (hnd : (files.map (·.relPath)).Nodup) (r : DocRow)
    (hr : r ∈ (reconPass c locId now1 files st).documents) :
    reconcileTouch locId files now1 r = r := by
  unfold reconcileTouch
  by_cases h : r.locationId = locId ∧ r.relPath ∈ files.map (·.relPath)
  · rw [if_pos h]
    have hpd : r ∈ passDocs c locId now1 files st.documents :=
      List.mem_of_mem_filter hr
    have hupd := (passDocs_canonical c locId now1 files st.documents hnd r hpd
      h.1 h.2).1
    rw [← hupd]
  · rw [if_neg h]

end Writer

namespace Writer

/-- C2 (corrected).  `reconcile_location_index` is idempotent up to the
`updated_at` refresh: with no filesystem change between two consecutive
calls, the second call leaves the FTS table identical, leaves the
`documents` table identical except that rows of the reconciled location
whose path is enumerated get `updated_at` set to the second call's
timestamp, reports the same indexed count, and is literally idempotent
exactly when the two timestamps coincide; both calls preserve key
uniqueness (no duplicate `(location_id, rel_path)` rows), and a missing
root makes the call a no-op. -/
theorem C2_reconcile_idempotent
    (c : Collab) (fs : LocFs) (locId now1 now2 : Int) (st : DbState)
    (hnd : (fs.files.map (·.relPath)).Nodup)
    (hdocs : (st.documents.map DocRow.keyOf).Nodup)
    (hfts : (st.fts.map FtsRow.keyOf).Nodup) :
    ((reconcileLocationIndex c fs locId now2
        (reconcileLocationIndex c fs locId now1 st).2).2.fts =
      (reconcileLocationIndex c fs locId now1 st).2.fts) ∧
    (fs.rootExists = true →
      (reconcileLocationIndex c fs locId now2
          (reconcileLocationIndex c fs locId now1 st).2).2.documents =
        ((reconcileLocationIndex c fs locId now1 st).2.documents).map
          (reconcileTouch locId fs.files now2)) ∧
    ((reconcileLocationIndex c fs locId now2
        (reconcileLocationIndex c fs locId now1 st).2).1 =
      (reconcileLocationIndex c fs locId now1 st).1) ∧
    (now2 = now1 →
      reconcileLocationIndex c fs locId now2
          (reconcileLocationIndex c fs locId now1 st).2 =
        reconcileLocationIndex c fs locId now1 st) ∧
    (((reconcileLocationIndex c fs locId now1 st).2.documents.map
        DocRow.keyOf).Nodup ∧
      ((reconcileLocationIndex c fs locId now1 st).2.fts.map
        FtsRow.keyOf).Nodup) ∧
    (fs.rootExists = false →
      reconcileLocationIndex c fs locId now1 st = (0, st)) := by
  have hext : ∀ (a b : DbState), a.documents = b.documents → a.fts = b.fts →
      a = b := by
    intro a b h1 h2
    cases a
    cases b
    simp_all
  cases hroot : fs.rootExists with
  | false =>
    have hnr : ∀ (now : Int) (s : DbState),
        reconcileLocationIndex c fs locId now s = (0, s) := by
      intro now s
      unfold reconcileLocationIndex
      rw [if_pos (by simp [hroot])]
    refine ⟨?_, ?_, ?_, ?_, ?_, ?_⟩
    · rw [hnr now1 st]
      rw [hnr now2 ((0, st) : Nat × DbState).2]
    · intro h
      exact absurd h (by simp)
    · rw [hnr now1 st]
      rw [hnr now2 ((0, st) : Nat × DbState).2]
    · intro _
      rw [hnr now1 st]
      rw [hnr now2 ((0, st) : Nat × DbState).2]
    · rw [hnr now1 st]
      exact ⟨hdocs, hfts⟩
    · intro _
      exact hnr now1 st
  | true =>
    have h1 := reconcileLocationIndex_eq c fs locId now1 st hroot hnd
    have h2 := reconcileLocationIndex_eq c fs locId now2
      (reconcileLocationIndex c fs locId now1 st).2 hroot hnd
    have hs : (reconcileLocationIndex c fs locId now1 st).2 =
        reconPass c locId now1 fs.files st := by rw [h1]
    rw [hs] at h2
    have hkeys := reconPass_keys_nodup c locId now1 fs.files st hnd hdocs hfts
    refine ⟨?_, fun _ => ?_, ?_, ?_, ?_, ?_⟩
    · rw [hs, h2]
      exact reconPass_fts_again c locId now1 now2 fs.files st
    · rw [hs, h2]
      exact reconPass_docs_again c locId now1 now2 fs.files st hnd
    · rw [hs, h2, h1]
    · intro he
      subst he
      rw [hs, h2, h1]
      refine congrArg₂ Prod.mk rfl ?_
      apply hext
      · rw [reconPass_docs_again c locId now2 now2 fs.files st hnd]
        rw [show ((reconPass c locId now2 fs.files st).documents).map
            (reconcileTouch locId fs.files now2) =
            ((reconPass c locId now2 fs.files st).documents).map id from
          List.map_congr_left (fun r hr =>
            reconcileTouch_mem_id c locId now2 fs.files st hnd r hr),
          List.map_id]
      · exact reconPass_fts_again c locId now2 now2 fs.files st
    · rw [hs]
      exact hkeys
    · intro h
      exact absurd h (by simp)

end Writer

namespace Writer

/-- C2 counterexample to the literal claim: with one unchanged file
`a.md`, a first pass at timestamp 0 and a second at timestamp 1 leave
different `documents` rows — `update_doc_in_catalog` always writes
`updated_at = Utc::now()`, so that column differs between the two calls
and the tables are not identical column-for-column. -/
theorem C2_counterexample :
    (reconcileLocationIndex ⟨fun _ => .error (), fun t => t⟩
        ⟨true, [⟨"a.md".data, 2, 0, none, some "hi".data, some "hi".data⟩]⟩ 7 1
        (reconcileLocationIndex ⟨fun _ => .error (), fun t => t⟩
          ⟨true, [⟨"a.md".data, 2, 0, none, some "hi".data, some "hi".data⟩]⟩ 7 0
          ⟨[], []⟩).2).2.documents ≠
      (reconcileLocationIndex ⟨fun _ => .error (), fun t => t⟩
        ⟨true, [⟨"a.md".data, 2, 0, none, some "hi".data, some "hi".data⟩]⟩ 7 0
        ⟨[], []⟩).2.documents := by
  decide

/-- C2 witness: the amended theorem applied to the one-file location. -/
theorem C2_witness :
    ((([⟨"a.md".data, 2, 0, none, some "hi".data, some "hi".data⟩] :
        List FsFile).map (·.relPath)).Nodup) ∧
      (reconcileLocationIndex ⟨fun _ => .error (), fun t => t⟩
          ⟨true, [⟨"a.md".data, 2, 0, none, some "hi".data, some "hi".data⟩]⟩ 7 1
          (reconcileLocationIndex ⟨fun _ => .error (), fun t => t⟩
            ⟨true, [⟨"a.md".data, 2, 0, none, some "hi".data, some "hi".data⟩]⟩
            7 0 ⟨[], []⟩).2).2.fts =
        (reconcileLocationIndex ⟨fun _ => .error (), fun t => t⟩
          ⟨true, [⟨"a.md".data, 2, 0, none, some "hi".data, some "hi".data⟩]⟩
          7 0 ⟨[], []⟩).2.fts :=
  ⟨by decide,
    (C2_reconcile_idempotent ⟨fun _ => .error (), fun t => t⟩
      ⟨true, [⟨"a.md".data, 2, 0, none, some "hi".data, some "hi".data⟩]⟩
      7 0 1 ⟨[], []⟩ (by decide) (by decide) (by decide)).1⟩

end Writer
